import Mathlib

/-!
# Detective Quest (`src/avancados_log.c`): clue ledger, suspect index, exploration, verdict

Shallow embedding of the C program.

* A C string (`char *` pointing at a NUL-terminated buffer) is the list of its
  bytes before the terminator, each byte an `unsigned char` in `1..255`
  (`CStr`).  A nullable `const char *` argument is an `Option CStr`, `none`
  being `NULL`.
* A `NoPista *` is a binary tree (`NoPista.nil` is the `NULL` pointer), likewise
  a `Sala *`; a `HashEntry *` chain is a list of entries, head first.
* `malloc`/`strdup` are taken to succeed (on failure the program exits).
-/

namespace DetectiveQuest

/-! ## C strings -/

/-- A NUL-terminated C string: the bytes before the terminator, none of them 0. -/
structure CStr where
  bytes : List Nat
  valid : ∀ b ∈ bytes, 0 < b ∧ b < 256

instance : DecidableEq CStr := fun a b =>
  decidable_of_iff (a.bytes = b.bytes)
    (by cases a; cases b; simp)

/-- The empty string `""`. -/
def CStr.vazia : CStr := ⟨[], by simp⟩

/-- An ASCII literal as a C string (characters outside `1..255` are dropped; the
literals used below are plain ASCII, so this is their byte sequence). -/
def ascii (s : String) : CStr :=
  ⟨(s.toList.map Char.toNat).filter (fun b => 0 < b ∧ b < 256), by
    intro b hb
    simpa using (List.mem_filter.mp hb).2⟩

/-- Byte-wise comparison of two NUL-terminated buffers, as `strcmp` does it: the
difference of the first pair of differing `unsigned char`s, the terminator
counting as 0.  The program only ever looks at the sign of the result. -/
def strcmpBytes : List Nat → List Nat → Int
  | [], [] => 0
  | [], b :: _ => 0 - (b : Int)
  | a :: _, [] => (a : Int) - 0
  | a :: as, b :: bs => if a = b then strcmpBytes as bs else (a : Int) - (b : Int)

/-- The libc `strcmp` on C strings. -/
def strcmp (a b : CStr) : Int := strcmpBytes a.bytes b.bytes

/-! ## Clue ledger (BST of collected clues) -/

/-- `NoPista *`: `nil` is `NULL`, `node esq pista dir` a heap node. -/
inductive NoPista where
  | nil : NoPista
  | node (esq : NoPista) (pista : CStr) (dir : NoPista) : NoPista
  deriving DecidableEq

/-- `inserirPista(raiz, pista)`, lines 105-124. -/
def inserirPista : NoPista → Option CStr → NoPista
  | raiz, none => raiz
  | .nil, some pista => .node .nil pista .nil
  | .node esq p dir, some pista =>
    let cmp := strcmp pista p
    if cmp = 0 then
      .node esq p dir
    else if cmp < 0 then
      .node (inserirPista esq (some pista)) p dir
    else
      .node esq p (inserirPista dir (some pista))

/-- `listarPistas(raiz)`, lines 227-232: the clues in the order they are printed
(left subtree, node, right subtree). -/
def listarPistas : NoPista → List CStr
  | .nil => []
  | .node esq pista dir => listarPistas esq ++ pista :: listarPistas dir

/-- Number of nodes of the ledger. -/
def NoPista.tamanho : NoPista → Nat
  | .nil => 0
  | .node esq _ dir => esq.tamanho + 1 + dir.tamanho

/-- A sequence of `inserirPista` calls, `raiz = inserirPista(raiz, p)` for each
`p` in turn. -/
def inserirTodas (raiz : NoPista) (ps : List (Option CStr)) : NoPista :=
  ps.foldl inserirPista raiz

/-- In-order contents of every subtree are strictly ascending for `strcmp`: the
search-tree invariant of the ledger, stated on the printed sequence. -/
def Ordenada (raiz : NoPista) : Prop :=
  (listarPistas raiz).Pairwise (fun a b => strcmp a b < 0)

/-- The strictly ascending `strcmp`-sorted list of the distinct strings of `ps`,
written from the words of the specification (sort the de-duplicated input). -/
def pistasOrdenadas (ps : List CStr) : List CStr :=
  List.insertionSort (fun a b => strcmp a b ≤ 0) ps.dedup

/-! ## Suspect index (chained hash table) -/

/-- `HASH_SIZE`, line 17. -/
def HASH_SIZE : Nat := 103

/-- `HashEntry`: one link of a bucket chain (`next` is the tail of the list). -/
structure HashEntry where
  pista : CStr
  suspeito : CStr
  deriving DecidableEq

/-- `HashTable`: the array `buckets[HASH_SIZE]` of chains. -/
structure HashTable where
  buckets : Fin HASH_SIZE → List HashEntry

/-- `hash_str(s)`, lines 244-250: djb2 on `unsigned long` (64 bits). -/
def hash_str (s : CStr) : Nat :=
  s.bytes.foldl (fun h c => (((h <<< 5) % 2 ^ 64 + h) % 2 ^ 64 + c) % 2 ^ 64) 5381

/-- The bucket number `hash_str(pista) % HASH_SIZE`. -/
def indice (pista : CStr) : Fin HASH_SIZE :=
  ⟨hash_str pista % HASH_SIZE, Nat.mod_lt _ (by decide)⟩

/-- The store `ht->buckets[h] = e`. -/
def HashTable.gravar (ht : HashTable) (h : Fin HASH_SIZE) (e : List HashEntry) : HashTable :=
  ⟨fun i => if i = h then e else ht.buckets i⟩

/-- `inicializarHash(ht)`, lines 253-255: the loop storing `NULL` in bucket
`0, 1, ..., HASH_SIZE - 1`. -/
def inicializarHash (ht : HashTable) : HashTable :=
  (List.finRange HASH_SIZE).foldl (fun t i => t.gravar i []) ht

/-- The `while (e)` scan of `inserirNaHash`, lines 132-140: `some` chain with the
suspect of the first entry whose key equals `pista` replaced (the early
`return`), `none` when the scan falls off the end of the chain. -/
def substituir : List HashEntry → CStr → CStr → Option (List HashEntry)
  | [], _, _ => none
  | e :: next, pista, suspeito =>
    if strcmp e.pista pista = 0 then
      some ({ e with suspeito := suspeito } :: next)
    else
      (substituir next pista suspeito).map (fun next1 => e :: next1)

/-- `inserirNaHash(ht, pista, suspeito)`, lines 128-148. -/
def inserirNaHash (ht : HashTable) : Option CStr → Option CStr → HashTable
  | some pista, some suspeito =>
    let h := indice pista
    match substituir (ht.buckets h) pista suspeito with
    | some cadeia => ht.gravar h cadeia
    | none => ht.gravar h ({ pista := pista, suspeito := suspeito } :: ht.buckets h)
  | _, _ => ht

/-- The `while (e)` scan of `encontrarSuspeito`, lines 156-159. -/
def procurar : List HashEntry → CStr → Option CStr
  | [], _ => none
  | e :: next, pista => if strcmp e.pista pista = 0 then some e.suspeito else procurar next pista

/-- `encontrarSuspeito(ht, pista)`, lines 152-161; `none` is `NULL`. -/
def encontrarSuspeito (ht : HashTable) : Option CStr → Option CStr
  | none => none
  | some pista => procurar (ht.buckets (indice pista)) pista

/-- A table after `inicializarHash` followed by the calls
`inserirNaHash(ht, op.1, op.2)` for each `op` in turn. -/
def construirHash (ht0 : HashTable) (ops : List (Option CStr × Option CStr)) : HashTable :=
  ops.foldl (fun ht op => inserirNaHash ht op.1 op.2) (inicializarHash ht0)

/-- All entries of the table, bucket after bucket. -/
def HashTable.entradas (ht : HashTable) : List HashEntry :=
  ((List.finRange HASH_SIZE).map ht.buckets).flatten

/-! ## Verdict -/

/-- `verificarSuspeitoFinal(raiz, ht, acusado)`, lines 215-224 (`int` result; the
count is at most the number of nodes, so no wrap-around is modelled). -/
def verificarSuspeitoFinal : NoPista → HashTable → Option CStr → Int
  | .nil, _, _ => 0
  | .node _ _ _, _, none => 0
  | .node esq pista dir, ht, some acusado =>
    let count : Int := 0
    let count := if esq ≠ .nil then count + verificarSuspeitoFinal esq ht (some acusado) else count
    let count :=
      match encontrarSuspeito ht (some pista) with
      | some s => if strcmp s acusado = 0 then count + 1 else count
      | none => count
    let count := if dir ≠ .nil then count + verificarSuspeitoFinal dir ht (some acusado) else count
    count

/-- The test `correspondencias >= 2` of `main`, line 342: the accusation is
sustained. -/
def sustentada (correspondencias : Int) : Bool := decide (correspondencias ≥ 2)

/-! ## Rooms and exploration -/

/-- `Sala *`: `nil` is `NULL`. -/
inductive Sala where
  | nil : Sala
  | node (nome : CStr) (pista : Option CStr) (esq dir : Sala) : Sala
  deriving DecidableEq

/-- `criarSala(nome, pista)`, lines 94-101. -/
def criarSala (nome pista : Option CStr) : Sala :=
  .node (nome.getD CStr.vazia) pista .nil .nil

/-- What `explorarSalas` prints, one constructor per message (`menu` stands for
the two prompt lines 182-183). -/
inductive Msg where
  | sala (nome : CStr)
  | pista (p : CStr)
  | semPista
  | menu
  | semEsquerda
  | semDireita
  | saindo
  | invalida
  deriving DecidableEq

/-- `isspace` in the C locale. -/
def isspace (b : Nat) : Bool := b = 32 || (9 ≤ b && b ≤ 13)

/-- `tolower` in the C locale. -/
def tolower (b : Nat) : Nat := if 65 ≤ b ∧ b ≤ 90 then b + 32 else b

/-- Lines 186-189: the first non-blank character of the buffer, lower-cased, or
`0` when the buffer holds only blanks. -/
def primeiroNaoBranco : List Nat → Nat
  | [] => 0
  | b :: resto =>
    if b = 0 then 0
    else if isspace b then primeiroNaoBranco resto
    else tolower b

/-- State after one iteration of the `while (1)` loop of `explorarSalas`. -/
structure Passo where
  atual : Sala
  colecao : NoPista
  saida : List Msg
  sair : Bool
  deriving DecidableEq

/-- Lines 173-180 for a room with the given name and clue: the ledger after the
insert and what is printed. -/
def entrar (nome : CStr) (pista : Option CStr) (colecao : NoPista) : NoPista × List Msg :=
  match pista with
  | some p => (inserirPista colecao (some p), [.sala nome, .pista p])
  | none => (colecao, [.sala nome, .semPista])

/-- Lines 191-208: the dispatch on the decoded character `c`, in room `atual`
(`nome`, `pista`, `esq`, `dir` are its fields). -/
def despachar (atual : Sala) (colecao : NoPista) (saida : List Msg) (c : Nat) : Passo :=
  match atual with
  | .nil => ⟨atual, colecao, saida, true⟩
  | .node _ _ esq dir =>
    if c = 101 then
      if esq ≠ .nil then ⟨esq, colecao, saida, false⟩
      else ⟨atual, colecao, saida ++ [.semEsquerda], false⟩
    else if c = 100 then
      if dir ≠ .nil then ⟨dir, colecao, saida, false⟩
      else ⟨atual, colecao, saida ++ [.semDireita], false⟩
    else if c = 115 then ⟨atual, colecao, saida ++ [.saindo], true⟩
    else ⟨atual, colecao, saida ++ [.invalida], false⟩

/-- One iteration of the loop, lines 173-208.  `linha` is the buffer filled by
`fgets`, `none` when `fgets` returns `NULL` (the buffer is then set to
`"s\n"`).  `atual` is never `NULL` inside the loop. -/
def turno (atual : Sala) (colecao : NoPista) (linha : Option (List Nat)) : Passo :=
  match atual with
  | .nil => ⟨atual, colecao, [], true⟩
  | .node nome pista _ _ =>
    let r := entrar nome pista colecao
    let escolha := linha.getD [115, 10]
    despachar atual r.1 (r.2 ++ [.menu]) (primeiroNaoBranco escolha)

/-- The `while (1)` loop of `explorarSalas`; `stdin` lists the buffers the
successive `fgets` calls deliver, after which `fgets` returns `NULL`. -/
def explorarLaco : List (List Nat) → Sala → NoPista → Passo
  | [], atual, colecao => turno atual colecao none
  | linha :: resto, atual, colecao =>
    let p := turno atual colecao (some linha)
    if p.sair then p
    else
      let q := explorarLaco resto p.atual p.colecao
      { q with saida := p.saida ++ q.saida }

/-- `explorarSalas(raiz, colecao, ht)`, lines 166-210: the room where the loop
ended, the ledger `*colecao` and the output. -/
def explorarSalas (raiz : Sala) (colecao : NoPista) (_ht : HashTable)
    (stdin : List (List Nat)) : Passo :=
  match raiz with
  | .nil => ⟨raiz, colecao, [], true⟩
  | .node _ _ _ _ => explorarLaco stdin raiz colecao

/-- The index of the end-to-end scenario of the specification: the table after
`inicializarHash` and the three `inserirNaHash` calls footprint -> Black,
torn page -> Green, hair -> Green. -/
def indiceCenario (ht0 : HashTable) : HashTable :=
  construirHash ht0
    [(some (ascii "footprint"), some (ascii "Black")),
     (some (ascii "torn page"), some (ascii "Green")),
     (some (ascii "hair"), some (ascii "Green"))]

/-- Invariant of the index: every entry sits in the bucket numbered by the hash
of its key, and no bucket holds the same key twice. -/
def HashTable.Valida (ht : HashTable) : Prop :=
  ∀ i, (∀ e ∈ ht.buckets i, indice e.pista = i) ∧ ((ht.buckets i).map HashEntry.pista).Nodup

/-- The field `pista` of a room (`none` for `NULL` and for a room without clue). -/
def Sala.pista : Sala → Option CStr
  | .nil => none
  | .node _ pista _ _ => pista

/-- The field `nome` of a room. -/
def Sala.nome : Sala → Option CStr
  | .nil => none
  | .node nome _ _ _ => some nome

/-- The field `esq` of a room. -/
def Sala.esq : Sala → Sala
  | .nil => .nil
  | .node _ _ esq _ => esq

/-- The field `dir` of a room. -/
def Sala.dir : Sala → Sala
  | .nil => .nil
  | .node _ _ _ dir => dir

/-- The values taken by `atual` at the top of each iteration of the loop of
`explorarSalas`, in order. -/
def salasDoLaco : List (List Nat) → Sala → NoPista → List Sala
  | [], atual, _ => [atual]
  | linha :: resto, atual, colecao =>
    let p := turno atual colecao (some linha)
    if p.sair then [atual]
    else atual :: salasDoLaco resto p.atual p.colecao

/-- The rooms that are the current room at some turn of
`explorarSalas(raiz, colecao, ht)`, in order (none when `raiz` is `NULL`). -/
def salasVisitadas (raiz : Sala) (colecao : NoPista) (stdin : List (List Nat)) : List Sala :=
  match raiz with
  | .nil => []
  | .node _ _ _ _ => salasDoLaco stdin raiz colecao

/-- A link of a room: `esq` or `dir`. -/
inductive Direcao where
  | esquerda
  | direita
  deriving DecidableEq

/-- The child of a room along one link. -/
def Sala.filho (s : Sala) : Direcao → Sala
  | .esquerda => s.esq
  | .direita => s.dir

/-- The room reached from `s` by following the links of a path, first link
first; the length of the path is the depth of that room below `s`. -/
def Sala.descer : Sala → List Direcao → Sala
  | s, [] => s
  | s, d :: ds => (s.filho d).descer ds

/-- One move of the exploration: `b` is `a` itself, or a (non-`NULL`) left or
right child of `a`. -/
def Desce (a b : Sala) : Prop :=
  b = a ∨ (b ≠ .nil ∧ (b = a.esq ∨ b = a.dir))

/-! ## The game built in `main` -/

/-- UTF-8 encoding of one character, the encoding of the source file. -/
def utf8Char (c : Char) : List Nat :=
  let n := c.toNat
  if n < 128 then [n]
  else if n < 2048 then [192 + n / 64, 128 + n % 64]
  else if n < 65536 then [224 + n / 4096, 128 + n / 64 % 64, 128 + n % 64]
  else [240 + n / 262144, 128 + n / 4096 % 64, 128 + n / 64 % 64, 128 + n % 64]

/-- A string literal of the source file as a C string: its UTF-8 bytes (a NUL
character would end the literal and is dropped). -/
def utf8 (s : String) : CStr :=
  ⟨((s.toList.map utf8Char).flatten).filter (fun b => 0 < b ∧ b < 256), by
    intro b hb
    simpa using (List.mem_filter.mp hb).2⟩

/-- The assignments `s->esq = esq; s->dir = dir;` of `main`, lines 294-299. -/
def Sala.ligar (s esq dir : Sala) : Sala :=
  match s with
  | .nil => .nil
  | .node nome pista _ _ => .node nome pista esq dir

/-- The room `cozinha` of `main`. -/
def cozinha : Sala := criarSala (some (utf8 "Cozinha")) (some (utf8 "Colher suja com restinho"))

/-- The room `estudio` of `main`. -/
def estudio : Sala := criarSala (some (utf8 "Estúdio")) (some (utf8 "Fio de cabelo loiro"))

/-- The room `jardim` of `main`. -/
def jardim : Sala := criarSala (some (utf8 "Jardim")) (some (utf8 "Pegada de botas grandes"))

/-- The room `quarto` of `main`. -/
def quarto : Sala := criarSala (some (utf8 "Quarto")) (some (utf8 "Bilhete com assinatura"))

/-- The room `biblioteca` of `main`, linked to its children. -/
def biblioteca : Sala :=
  (criarSala (some (utf8 "Biblioteca")) (some (utf8 "Página arrancada do diário"))).ligar
    cozinha estudio

/-- The room `salaJantar` of `main`, linked to its children. -/
def salaJantar : Sala := (criarSala (some (utf8 "Sala de Jantar")) none).ligar jardim quarto

/-- The room `hall` of `main`, linked to its children: the root of the mansion. -/
def hall : Sala :=
  (criarSala (some (utf8 "Hall")) (some (utf8 "Pegadas no carpete"))).ligar biblioteca salaJantar

/-- The table `ht` of `main` after lines 303-309. -/
def indiceMain (ht0 : HashTable) : HashTable :=
  construirHash ht0
    [(some (utf8 "Pegadas no carpete"), some (utf8 "Sr. Black")),
     (some (utf8 "Página arrancada do diário"), some (utf8 "Sra. Green")),
     (some (utf8 "Colher suja com restinho"), some (utf8 "Cozinheiro")),
     (some (utf8 "Fio de cabelo loiro"), some (utf8 "Sra. Green")),
     (some (utf8 "Pegada de botas grandes"), some (utf8 "Sr. Black")),
     (some (utf8 "Bilhete com assinatura"), some (utf8 "Baronesa"))]

/-- The exploration of `main`, lines 312-319: `explorarSalas(hall, &colecao, &ht)`
from the empty ledger. -/
def exploracaoMain (ht0 : HashTable) (stdin : List (List Nat)) : Passo :=
  explorarSalas hall .nil (indiceMain ht0) stdin

/-- The value `correspondencias` of `main`, line 338, for the accusation
`acusado`. -/
def correspondenciasMain (ht0 : HashTable) (stdin : List (List Nat)) (acusado : CStr) : Int :=
  verificarSuspeitoFinal (exploracaoMain ht0 stdin).colecao (indiceMain ht0) (some acusado)

/-- The ledger after the insert step of a turn in room `atual` (lines 174-177). -/
def aoEntrar (atual : Sala) (colecao : NoPista) : NoPista :=
  inserirPista colecao atual.pista

/-- The (current room, ledger) pairs that one loop iteration started in `σ` can
lead to: stay, go to the left child if there is one, go to the right child if
there is one. -/
def sucessores (σ : Sala × NoPista) : List (Sala × NoPista) :=
  [(σ.1, aoEntrar σ.1 σ.2)]
    ++ (if σ.1.esq ≠ .nil then [(σ.1.esq, aoEntrar σ.1 σ.2)] else [])
    ++ (if σ.1.dir ≠ .nil then [(σ.1.dir, aoEntrar σ.1 σ.2)] else [])

/-- The (current room, ledger) pairs at the top of the loop that the game of
`main` can reach: four rounds of `sucessores` from `(hall, NULL)`. -/
def estadosMain : List (Sala × NoPista) :=
  let passo := fun (l : List (Sala × NoPista)) => (l ++ (l.map sucessores).flatten).dedup
  passo (passo (passo (passo [(hall, .nil)])))

/-- The suspects the index gives for the clues of a ledger, in order. -/
def suspeitosDe (ht : HashTable) (colecao : NoPista) : List CStr :=
  (listarPistas colecao).filterMap (fun c => encontrarSuspeito ht (some c))

/-! ## Theorems -/

/-! ### `strcmp` is a strict total order on C strings -/

theorem strcmpBytes_self (a : List Nat) : strcmpBytes a a = 0 := by
  induction a with
  | nil => rfl
  | cons x xs ih => simp [strcmpBytes, ih]

theorem strcmpBytes_eq_zero : ∀ (a b : List Nat), (∀ x ∈ a, 0 < x) → (∀ x ∈ b, 0 < x) →
    strcmpBytes a b = 0 → a = b
  | [], [], _, _, _ => rfl
  | [], y :: ys, _, hb, h => by
    have := hb y (by simp)
    simp [strcmpBytes] at h
    omega
  | x :: xs, [], ha, _, h => by
    have := ha x (by simp)
    simp [strcmpBytes] at h
    omega
  | x :: xs, y :: ys, ha, hb, h => by
    by_cases hxy : x = y
    · subst hxy
      simp [strcmpBytes] at h
      have := strcmpBytes_eq_zero xs ys (fun z hz => ha z (by simp [hz]))
        (fun z hz => hb z (by simp [hz])) h
      rw [this]
    · simp [strcmpBytes, hxy] at h
      omega

theorem strcmpBytes_swap : ∀ (a b : List Nat), strcmpBytes b a = - strcmpBytes a b
  | [], [] => by simp [strcmpBytes]
  | [], y :: ys => by simp [strcmpBytes]
  | x :: xs, [] => by simp [strcmpBytes]
  | x :: xs, y :: ys => by
    by_cases hxy : x = y
    · subst hxy
      simp [strcmpBytes, strcmpBytes_swap xs ys]
    · have hyx : ¬ y = x := fun h => hxy h.symm
      simp [strcmpBytes, hxy, hyx]

theorem strcmpBytes_trans : ∀ (a b c : List Nat), (∀ x ∈ b, 0 < x) →
    strcmpBytes a b < 0 → strcmpBytes b c < 0 → strcmpBytes a c < 0
  | _, [], [], _, _, h2 => by simp [strcmpBytes] at h2
  | [], [], _ :: _, _, h1, _ => by simp [strcmpBytes] at h1
  | x :: xs, [], _ :: _, _, h1, _ => by
    simp [strcmpBytes] at h1
    omega
  | _, y :: ys, [], hb, _, h2 => by
    have := hb y (by simp)
    simp [strcmpBytes] at h2
    omega
  | [], y :: ys, z :: zs, hb, _, h2 => by
    have := hb y (by simp)
    by_cases hyz : y = z
    · subst hyz
      simp [strcmpBytes]
      omega
    · simp [strcmpBytes, hyz] at h2
      simp [strcmpBytes]
      omega
  | x :: xs, y :: ys, z :: zs, hb, h1, h2 => by
    by_cases hxy : x = y
    · subst hxy
      by_cases hyz : x = z
      · subst hyz
        simp [strcmpBytes] at h1 h2 ⊢
        exact strcmpBytes_trans xs ys zs (fun w hw => hb w (by simp [hw])) h1 h2
      · simp [strcmpBytes, hyz] at h2 ⊢
        exact h2
    · by_cases hyz : y = z
      · subst hyz
        simp [strcmpBytes, hxy] at h1 ⊢
        exact h1
      · simp [strcmpBytes, hxy, hyz] at h1 h2
        have hxz : ¬ x = z := by omega
        simp [strcmpBytes, hxz]
        omega

theorem strcmp_self (a : CStr) : strcmp a a = 0 := strcmpBytes_self a.bytes

theorem strcmp_eq_zero_iff (a b : CStr) : strcmp a b = 0 ↔ a = b := by
  constructor
  · intro h
    have := strcmpBytes_eq_zero a.bytes b.bytes (fun x hx => (a.valid x hx).1)
      (fun x hx => (b.valid x hx).1) h
    cases a; cases b; simp_all
  · rintro rfl
    exact strcmp_self a

theorem strcmp_swap (a b : CStr) : strcmp b a = - strcmp a b :=
  strcmpBytes_swap a.bytes b.bytes

theorem strcmp_trans {a b c : CStr} (h1 : strcmp a b < 0) (h2 : strcmp b c < 0) :
    strcmp a c < 0 :=
  strcmpBytes_trans a.bytes b.bytes c.bytes (fun x hx => (b.valid x hx).1) h1 h2

theorem strcmp_ne_of_lt {a b : CStr} (h : strcmp a b < 0) : a ≠ b := by
  rintro rfl
  rw [strcmp_self] at h
  exact absurd h (by decide)

/-! ### The ledger -/

theorem inserirPista_none (raiz : NoPista) : inserirPista raiz none = raiz := by
  cases raiz <;> rfl

theorem mem_listarPistas_inserirPista (raiz : NoPista) (c x : CStr) :
    x ∈ listarPistas (inserirPista raiz (some c)) ↔ x = c ∨ x ∈ listarPistas raiz := by
  induction raiz with
  | nil => simp [inserirPista, listarPistas]
  | node esq p dir ihe ihd =>
    simp only [inserirPista]
    by_cases h0 : strcmp c p = 0
    · have hcp : c = p := (strcmp_eq_zero_iff c p).1 h0
      subst hcp
      simp only [h0, if_true, listarPistas, List.mem_append, List.mem_cons]
      tauto
    · by_cases hlt : strcmp c p < 0
      · simp only [h0, hlt, if_true, if_false, listarPistas, List.mem_append, List.mem_cons, ihe]
        tauto
      · simp only [h0, hlt, if_false, listarPistas, List.mem_append, List.mem_cons, ihd]
        tauto

theorem ordenada_node (esq dir : NoPista) (p : CStr) :
    Ordenada (.node esq p dir) ↔
      Ordenada esq ∧ Ordenada dir ∧ (∀ x ∈ listarPistas esq, strcmp x p < 0) ∧
        (∀ y ∈ listarPistas dir, strcmp p y < 0) := by
  unfold Ordenada
  simp only [listarPistas, List.pairwise_append, List.pairwise_cons, List.mem_cons]
  constructor
  · rintro ⟨h1, ⟨h2, h3⟩, h4⟩
    exact ⟨h1, h3, fun x hx => h4 x hx p (Or.inl rfl), h2⟩
  · rintro ⟨h1, h2, h3, h4⟩
    refine ⟨h1, ⟨h4, h2⟩, ?_⟩
    rintro x hx y (rfl | hy)
    · exact h3 x hx
    · exact strcmp_trans (h3 x hx) (h4 y hy)

theorem ordenada_inserirPista (raiz : NoPista) (c : CStr) (h : Ordenada raiz) :
    Ordenada (inserirPista raiz (some c)) := by
  induction raiz with
  | nil => simp [inserirPista, Ordenada, listarPistas]
  | node esq p dir ihe ihd =>
    obtain ⟨h1, h2, h3, h4⟩ := (ordenada_node esq dir p).1 h
    simp only [inserirPista]
    by_cases h0 : strcmp c p = 0
    · simpa [h0] using h
    · by_cases hlt : strcmp c p < 0
      · simp only [h0, hlt, if_true, if_false]
        refine (ordenada_node _ _ _).2 ⟨ihe h1, h2, ?_, h4⟩
        intro x hx
        rcases (mem_listarPistas_inserirPista esq c x).1 hx with rfl | hx
        · exact hlt
        · exact h3 x hx
      · simp only [h0, hlt, if_false]
        refine (ordenada_node _ _ _).2 ⟨h1, ihd h2, h3, ?_⟩
        intro y hy
        rcases (mem_listarPistas_inserirPista dir c y).1 hy with rfl | hy
        · have := strcmp_swap y p
          omega
        · exact h4 y hy

theorem inserirPista_of_mem (raiz : NoPista) (c : CStr) (h : Ordenada raiz)
    (hc : c ∈ listarPistas raiz) : inserirPista raiz (some c) = raiz := by
  induction raiz with
  | nil => simp [listarPistas] at hc
  | node esq p dir ihe ihd =>
    obtain ⟨h1, h2, h3, h4⟩ := (ordenada_node esq dir p).1 h
    simp only [inserirPista]
    by_cases h0 : strcmp c p = 0
    · simp [h0]
    · have hne : c ≠ p := fun e => h0 ((strcmp_eq_zero_iff c p).2 e)
      simp only [listarPistas, List.mem_append, List.mem_cons] at hc
      by_cases hlt : strcmp c p < 0
      · simp only [h0, hlt, if_true, if_false]
        rcases hc with hc | hc | hc
        · rw [ihe h1 hc]
        · exact absurd hc hne
        · have := h4 c hc
          have := strcmp_swap c p
          omega
      · simp only [h0, hlt, if_false]
        rcases hc with hc | hc | hc
        · exact absurd (h3 c hc) hlt
        · exact absurd hc hne
        · rw [ihd h2 hc]

theorem ordenada_inserirTodas (ps : List (Option CStr)) (raiz : NoPista) (h : Ordenada raiz) :
    Ordenada (inserirTodas raiz ps) := by
  induction ps generalizing raiz with
  | nil => exact h
  | cons p ps ih =>
    cases p with
    | none => simpa [inserirTodas, inserirPista_none] using ih raiz h
    | some c => exact ih _ (ordenada_inserirPista raiz c h)

theorem mem_listarPistas_inserirTodas (ps : List (Option CStr)) (raiz : NoPista) (x : CStr) :
    x ∈ listarPistas (inserirTodas raiz ps) ↔ some x ∈ ps ∨ x ∈ listarPistas raiz := by
  induction ps generalizing raiz with
  | nil => simp [inserirTodas]
  | cons p ps ih =>
    cases p with
    | none =>
      have := ih raiz
      simpa [inserirTodas, inserirPista_none] using this
    | some c =>
      have := ih (inserirPista raiz (some c))
      simp only [inserirTodas, List.foldl_cons] at this ⊢
      rw [this, mem_listarPistas_inserirPista]
      simp only [List.mem_cons, Option.some.injEq]
      tauto

theorem ordenada_nil : Ordenada .nil := by simp [Ordenada, listarPistas]

theorem nodup_listarPistas {raiz : NoPista} (h : Ordenada raiz) : (listarPistas raiz).Nodup :=
  List.Pairwise.imp (fun hab => strcmp_ne_of_lt hab) h

theorem strcmp_le_total (a b : CStr) : strcmp a b ≤ 0 ∨ strcmp b a ≤ 0 := by
  have := strcmp_swap a b
  omega

theorem strcmp_le_trans {a b c : CStr} (h1 : strcmp a b ≤ 0) (h2 : strcmp b c ≤ 0) :
    strcmp a c ≤ 0 := by
  rcases lt_or_eq_of_le h1 with h1 | h1
  · rcases lt_or_eq_of_le h2 with h2 | h2
    · exact Int.le_of_lt (strcmp_trans h1 h2)
    · rw [(strcmp_eq_zero_iff b c).1 h2] at h1
      exact Int.le_of_lt h1
  · rw [(strcmp_eq_zero_iff a b).1 h1]
    exact h2

theorem strcmp_le_antisymm {a b : CStr} (h1 : strcmp a b ≤ 0) (h2 : strcmp b a ≤ 0) :
    a = b := by
  have := strcmp_swap a b
  exact (strcmp_eq_zero_iff a b).1 (by omega)

/-- A strictly ascending list is determined by its set of members. -/
theorem crescente_unica {l1 l2 : List CStr}
    (h1 : l1.Pairwise (fun a b => strcmp a b < 0))
    (h2 : l2.Pairwise (fun a b => strcmp a b < 0))
    (hm : ∀ c, c ∈ l1 ↔ c ∈ l2) : l1 = l2 := by
  haveI : IsAntisymm CStr (fun a b => strcmp a b ≤ 0) := ⟨fun _ _ => strcmp_le_antisymm⟩
  have n1 : l1.Nodup := List.Pairwise.imp (fun hab => strcmp_ne_of_lt hab) h1
  have n2 : l2.Nodup := List.Pairwise.imp (fun hab => strcmp_ne_of_lt hab) h2
  have hp : l1.Perm l2 := (List.perm_ext_iff_of_nodup n1 n2).2 hm
  exact List.eq_of_perm_of_sorted hp (List.Pairwise.imp (fun hab => Int.le_of_lt hab) h1)
    (List.Pairwise.imp (fun hab => Int.le_of_lt hab) h2)

theorem pistasOrdenadas_crescente (ps : List CStr) :
    (pistasOrdenadas ps).Pairwise (fun a b => strcmp a b < 0) := by
  haveI : IsTotal CStr (fun a b => strcmp a b ≤ 0) := ⟨strcmp_le_total⟩
  haveI : IsTrans CStr (fun a b => strcmp a b ≤ 0) := ⟨fun _ _ _ => strcmp_le_trans⟩
  have hs : (pistasOrdenadas ps).Pairwise (fun a b => strcmp a b ≤ 0) :=
    List.sorted_insertionSort (fun a b => strcmp a b ≤ 0) ps.dedup
  have hn : (pistasOrdenadas ps).Nodup :=
    (List.perm_insertionSort (fun a b => strcmp a b ≤ 0) ps.dedup).nodup_iff.2 (List.nodup_dedup ps)
  refine (hs.and hn).imp ?_
  intro a b hab
  rcases lt_or_eq_of_le hab.1 with h | h
  · exact h
  · exact absurd ((strcmp_eq_zero_iff a b).1 h) hab.2

theorem mem_pistasOrdenadas (ps : List CStr) (c : CStr) : c ∈ pistasOrdenadas ps ↔ c ∈ ps := by
  unfold pistasOrdenadas
  rw [(List.perm_insertionSort (fun a b => strcmp a b ≤ 0) ps.dedup).mem_iff, List.mem_dedup]

theorem mem_listarPistas_construida (ps : List CStr) (c : CStr) :
    c ∈ listarPistas (inserirTodas .nil (ps.map some)) ↔ c ∈ ps := by
  rw [mem_listarPistas_inserirTodas]
  simp [listarPistas]

/-- C1: inserting the clues `ps` one by one into the empty ledger gives a tree
whose in-order sequence (what `listarPistas` prints) is the `strcmp`-sorted list
of the distinct clues of `ps`: it equals `pistasOrdenadas ps`, it is strictly
ascending for `strcmp`, it has exactly the members of `ps`, and any other
insertion sequence `qs` with the same set of clues prints the same sequence;
inserting "zeta", "alpha", "mu" prints "alpha", "mu", "zeta". -/
theorem listarPistas_inserirTodas_ordenado (ps : List CStr) :
    listarPistas (inserirTodas .nil (ps.map some)) = pistasOrdenadas ps ∧
    (listarPistas (inserirTodas .nil (ps.map some))).Pairwise (fun a b => strcmp a b < 0) ∧
    (∀ c, c ∈ listarPistas (inserirTodas .nil (ps.map some)) ↔ c ∈ ps) ∧
    (∀ qs : List CStr, (∀ c, c ∈ qs ↔ c ∈ ps) →
      listarPistas (inserirTodas .nil (qs.map some))
        = listarPistas (inserirTodas .nil (ps.map some))) ∧
    listarPistas (inserirTodas .nil [some (ascii "zeta"), some (ascii "alpha"), some (ascii "mu")])
      = [ascii "alpha", ascii "mu", ascii "zeta"] := by
  have hord : ∀ qs : List CStr, Ordenada (inserirTodas .nil (qs.map some)) :=
    fun qs => ordenada_inserirTodas _ _ ordenada_nil
  refine ⟨?_, hord ps, mem_listarPistas_construida ps, ?_, by decide⟩
  · exact crescente_unica (hord ps) (pistasOrdenadas_crescente ps)
      (fun c => by rw [mem_listarPistas_construida, mem_pistasOrdenadas])
  · intro qs hq
    exact crescente_unica (hord qs) (hord ps)
      (fun c => by rw [mem_listarPistas_construida, mem_listarPistas_construida, hq])

theorem inserirPista_repetida (c : CStr) (n : Nat) :
    inserirTodas (.node .nil c .nil) (List.replicate n (some c)) = .node .nil c .nil := by
  induction n with
  | zero => rfl
  | succ n ih =>
    simp only [List.replicate_succ, inserirTodas, List.foldl_cons, inserirPista, strcmp_self,
      if_true]
    exact ih

/-- C2: for every clue `c` and every `n ≥ 1`, `n` calls of `inserirPista` with `c`
from the empty ledger give the single node holding `c`: size 1, in-order
sequence `[c]`. -/
theorem inserirPista_n_vezes (c : CStr) (n : Nat) (hn : 1 ≤ n) :
    inserirTodas .nil (List.replicate n (some c)) = .node .nil c .nil ∧
    (inserirTodas .nil (List.replicate n (some c))).tamanho = 1 ∧
    listarPistas (inserirTodas .nil (List.replicate n (some c))) = [c] := by
  obtain ⟨m, rfl⟩ : ∃ m, n = m + 1 := ⟨n - 1, by omega⟩
  have h : inserirTodas .nil (List.replicate (m + 1) (some c)) = .node .nil c .nil := by
    simp only [List.replicate_succ, inserirTodas, List.foldl_cons, inserirPista]
    exact inserirPista_repetida c m
  rw [h]
  exact ⟨rfl, rfl, rfl⟩

theorem inserirPista_n_vezes_witness :
    1 ≤ 100 ∧ (inserirTodas .nil (List.replicate 100 (some (ascii "hair"))) = .node .nil (ascii "hair") .nil ∧
    (inserirTodas .nil (List.replicate 100 (some (ascii "hair")))).tamanho = 1 ∧
    listarPistas (inserirTodas .nil (List.replicate 100 (some (ascii "hair")))) = [ascii "hair"]) :=
  ⟨by decide, inserirPista_n_vezes (ascii "hair") 100 (by decide)⟩

/-! ### The verdict -/

theorem verificarSuspeitoFinal_nil (ht : HashTable) (acusado : Option CStr) :
    verificarSuspeitoFinal .nil ht acusado = 0 := by
  cases acusado <;> rfl

theorem verificarSuspeitoFinal_none (raiz : NoPista) (ht : HashTable) :
    verificarSuspeitoFinal raiz ht none = 0 := by
  cases raiz <;> rfl

theorem verificarSuspeitoFinal_node (esq dir : NoPista) (p : CStr) (ht : HashTable)
    (acusado : CStr) :
    verificarSuspeitoFinal (.node esq p dir) ht (some acusado)
      = verificarSuspeitoFinal esq ht (some acusado)
        + (if encontrarSuspeito ht (some p) = some acusado then 1 else 0)
        + verificarSuspeitoFinal dir ht (some acusado) := by
  have he : (if esq ≠ .nil then (0 : Int) + verificarSuspeitoFinal esq ht (some acusado) else 0)
      = verificarSuspeitoFinal esq ht (some acusado) := by
    by_cases h : esq = .nil
    · subst h
      simp [verificarSuspeitoFinal]
    · simp [h]
  have hd : ∀ k : Int, (if dir ≠ .nil then k + verificarSuspeitoFinal dir ht (some acusado) else k)
      = k + verificarSuspeitoFinal dir ht (some acusado) := by
    intro k
    by_cases h : dir = .nil
    · subst h
      simp [verificarSuspeitoFinal]
    · simp [h]
  simp only [verificarSuspeitoFinal]
  rw [he, hd]
  congr 1
  cases hs : encontrarSuspeito ht (some p) with
  | none => simp
  | some s =>
    by_cases h0 : strcmp s acusado = 0
    · have := (strcmp_eq_zero_iff s acusado).1 h0
      subst this
      simp [h0]
    · have hne : s ≠ acusado := fun e => h0 ((strcmp_eq_zero_iff s acusado).2 e)
      simp [h0, hne]

theorem verificarSuspeitoFinal_eq_countP (raiz : NoPista) (ht : HashTable) (acusado : CStr) :
    verificarSuspeitoFinal raiz ht (some acusado)
      = ((listarPistas raiz).countP (fun c => encontrarSuspeito ht (some c) = some acusado) : Nat) := by
  induction raiz with
  | nil => simp [verificarSuspeitoFinal, listarPistas]
  | node esq p dir ihe ihd =>
    rw [verificarSuspeitoFinal_node, ihe, ihd]
    simp only [listarPistas, List.countP_append, List.countP_cons]
    by_cases h : encontrarSuspeito ht (some p) = some acusado
    · simp [h]
      omega
    · simp [h]

theorem length_listarPistas (raiz : NoPista) : (listarPistas raiz).length = raiz.tamanho := by
  induction raiz with
  | nil => rfl
  | node esq p dir ihe ihd => simp [listarPistas, NoPista.tamanho, ihe, ihd]; omega

theorem listarPistas_inserirTodas_perm (ps : List (Option CStr)) :
    (listarPistas (inserirTodas .nil ps)).Perm ps.reduceOption.dedup := by
  refine (List.perm_ext_iff_of_nodup
    (nodup_listarPistas (ordenada_inserirTodas ps .nil ordenada_nil)) (List.nodup_dedup _)).2 ?_
  intro c
  rw [mem_listarPistas_inserirTodas, List.mem_dedup, List.reduceOption_mem_iff]
  simp [listarPistas]

theorem verificarSuspeitoFinal_mesmas_pistas (ps qs : List (Option CStr)) (ht : HashTable)
    (acusado : CStr) (hq : ∀ c : CStr, some c ∈ qs ↔ some c ∈ ps) :
    verificarSuspeitoFinal (inserirTodas .nil qs) ht (some acusado)
      = verificarSuspeitoFinal (inserirTodas .nil ps) ht (some acusado) := by
  rw [verificarSuspeitoFinal_eq_countP, verificarSuspeitoFinal_eq_countP]
  have hp : (listarPistas (inserirTodas .nil qs)).Perm (listarPistas (inserirTodas .nil ps)) := by
    refine (List.perm_ext_iff_of_nodup
      (nodup_listarPistas (ordenada_inserirTodas qs .nil ordenada_nil))
      (nodup_listarPistas (ordenada_inserirTodas ps .nil ordenada_nil))).2 ?_
    intro c
    rw [mem_listarPistas_inserirTodas, mem_listarPistas_inserirTodas, hq]
  rw [hp.countP_eq]

/-- C3: for every ledger built by `inserirPista` calls from the empty ledger,
every index and every accused string, `verificarSuspeitoFinal` returns the
number of distinct inserted clues `c` whose `encontrarSuspeito` result is
present and equal to the accused (clues with no entry are not counted), and any
other insertion sequence with the same set of clues gives the same result. -/
theorem verificarSuspeitoFinal_conta (ps : List (Option CStr)) (ht : HashTable) (acusado : CStr) :
    verificarSuspeitoFinal (inserirTodas .nil ps) ht (some acusado)
      = ((ps.reduceOption.dedup.filter
          (fun c => encontrarSuspeito ht (some c) = some acusado)).length : Nat) ∧
    (∀ qs : List (Option CStr), (∀ c : CStr, some c ∈ qs ↔ some c ∈ ps) →
      verificarSuspeitoFinal (inserirTodas .nil qs) ht (some acusado)
        = verificarSuspeitoFinal (inserirTodas .nil ps) ht (some acusado)) := by
  refine ⟨?_, fun qs hq => verificarSuspeitoFinal_mesmas_pistas ps qs ht acusado hq⟩
  rw [verificarSuspeitoFinal_eq_countP, (listarPistas_inserirTodas_perm ps).countP_eq,
    List.countP_eq_length_filter]

/-- C4: for every ledger, index and accused value (absent or not), the result
of `verificarSuspeitoFinal` is at least 0 and at most the number of nodes of the
ledger, and it is 0 for the empty ledger. -/
theorem verificarSuspeitoFinal_limites (raiz : NoPista) (ht : HashTable) (acusado : Option CStr) :
    0 ≤ verificarSuspeitoFinal raiz ht acusado ∧
    verificarSuspeitoFinal raiz ht acusado ≤ (raiz.tamanho : Int) ∧
    verificarSuspeitoFinal .nil ht acusado = 0 := by
  refine ⟨?_, ?_, verificarSuspeitoFinal_nil ht acusado⟩
  · cases acusado with
    | none => simp [verificarSuspeitoFinal_none]
    | some a =>
      rw [verificarSuspeitoFinal_eq_countP]
      exact Int.ofNat_nonneg _
  · cases acusado with
    | none => simp [verificarSuspeitoFinal_none]
    | some a =>
      rw [verificarSuspeitoFinal_eq_countP, ← length_listarPistas]
      exact Int.ofNat_le.2 (List.countP_le_length _)

/-! ### The suspect index -/

theorem buckets_foldl_gravar (l : List (Fin HASH_SIZE)) (ht : HashTable) (j : Fin HASH_SIZE) :
    (l.foldl (fun t i => t.gravar i []) ht).buckets j = if j ∈ l then [] else ht.buckets j := by
  induction l generalizing ht with
  | nil => simp
  | cons i l ih =>
    rw [List.foldl_cons, ih]
    by_cases hj : j ∈ l
    · simp [hj]
    · by_cases hji : j = i
      · simp [hj, hji, HashTable.gravar]
      · simp [hj, hji, HashTable.gravar]

theorem inicializarHash_buckets (ht : HashTable) (j : Fin HASH_SIZE) :
    (inicializarHash ht).buckets j = [] := by
  unfold inicializarHash
  rw [buckets_foldl_gravar]
  simp [List.mem_finRange]

theorem inicializarHash_eq (ht : HashTable) : inicializarHash ht = ⟨fun _ => []⟩ := by
  have h : (inicializarHash ht).buckets = fun _ => [] := funext (inicializarHash_buckets ht)
  cases hi : inicializarHash ht with
  | mk b =>
    rw [hi] at h
    simp only at h
    rw [h]

theorem inserirTodas_append (raiz : NoPista) (ps qs : List (Option CStr)) :
    inserirTodas raiz (ps ++ qs) = inserirTodas (inserirTodas raiz ps) qs := by
  simp [inserirTodas, List.foldl_append]

/-- C5: with the index footprint -> Black, torn page -> Green, hair -> Green,
every ledger built from the empty one that holds exactly footprint and hair
scores 1 for the accused Green, which the test of `main` (count >= 2) does not
sustain; after `inserirPista` of torn page it scores 2, which is sustained. -/
theorem cenario_green (ht0 : HashTable) (ps : List (Option CStr))
    (hps : ∀ c : CStr, some c ∈ ps ↔ c = ascii "footprint" ∨ c = ascii "hair") :
    verificarSuspeitoFinal (inserirTodas .nil ps) (indiceCenario ht0) (some (ascii "Green")) = 1 ∧
    sustentada (verificarSuspeitoFinal (inserirTodas .nil ps) (indiceCenario ht0)
      (some (ascii "Green"))) = false ∧
    verificarSuspeitoFinal (inserirPista (inserirTodas .nil ps) (some (ascii "torn page")))
      (indiceCenario ht0) (some (ascii "Green")) = 2 ∧
    sustentada (verificarSuspeitoFinal
      (inserirPista (inserirTodas .nil ps) (some (ascii "torn page")))
      (indiceCenario ht0) (some (ascii "Green"))) = true := by
  have hht : indiceCenario ht0 = indiceCenario ⟨fun _ => []⟩ := by
    simp only [indiceCenario, construirHash, inicializarHash_eq]
  have h1 : verificarSuspeitoFinal (inserirTodas .nil ps) (indiceCenario ht0)
      (some (ascii "Green")) = 1 := by
    rw [verificarSuspeitoFinal_mesmas_pistas [some (ascii "footprint"), some (ascii "hair")] ps
      _ _ (fun c => by rw [hps]; simp), hht]
    decide
  have h2 : verificarSuspeitoFinal (inserirPista (inserirTodas .nil ps) (some (ascii "torn page")))
      (indiceCenario ht0) (some (ascii "Green")) = 2 := by
    have e : inserirPista (inserirTodas .nil ps) (some (ascii "torn page"))
        = inserirTodas .nil (ps ++ [some (ascii "torn page")]) := by
      rw [inserirTodas_append]
      rfl
    rw [e, verificarSuspeitoFinal_mesmas_pistas
      [some (ascii "footprint"), some (ascii "hair"), some (ascii "torn page")]
      (ps ++ [some (ascii "torn page")]) _ _
      (fun c => by simp only [List.mem_append, hps]; simp; tauto), hht]
    decide
  rw [h1, h2]
  exact ⟨rfl, by decide, rfl, by decide⟩

theorem cenario_green_witness :
    (∀ c : CStr, some c ∈ [some (ascii "hair"), some (ascii "footprint")]
      ↔ c = ascii "footprint" ∨ c = ascii "hair") ∧
    (verificarSuspeitoFinal (inserirTodas .nil [some (ascii "hair"), some (ascii "footprint")])
      (indiceCenario ⟨fun _ => []⟩) (some (ascii "Green")) = 1 ∧
    sustentada (verificarSuspeitoFinal
      (inserirTodas .nil [some (ascii "hair"), some (ascii "footprint")])
      (indiceCenario ⟨fun _ => []⟩) (some (ascii "Green"))) = false ∧
    verificarSuspeitoFinal (inserirPista
      (inserirTodas .nil [some (ascii "hair"), some (ascii "footprint")])
      (some (ascii "torn page"))) (indiceCenario ⟨fun _ => []⟩) (some (ascii "Green")) = 2 ∧
    sustentada (verificarSuspeitoFinal (inserirPista
      (inserirTodas .nil [some (ascii "hair"), some (ascii "footprint")])
      (some (ascii "torn page"))) (indiceCenario ⟨fun _ => []⟩) (some (ascii "Green"))) = true) :=
  ⟨fun c => by simp; tauto,
   cenario_green ⟨fun _ => []⟩ [some (ascii "hair"), some (ascii "footprint")]
     (fun c => by simp; tauto)⟩

/-! #### Bucket chains -/

theorem substituir_eq_none_iff (c : List HashEntry) (k v : CStr) :
    substituir c k v = none ↔ k ∉ c.map HashEntry.pista := by
  induction c with
  | nil => simp [substituir]
  | cons e next ih =>
    by_cases h0 : strcmp e.pista k = 0
    · have := (strcmp_eq_zero_iff e.pista k).1 h0
      simp [substituir, h0, this, strcmp_self]
    · have hne : ¬ k = e.pista := fun h => h0 ((strcmp_eq_zero_iff e.pista k).2 h.symm)
      simp only [substituir, h0, if_false, Option.map_eq_none', ih, List.map_cons, List.mem_cons,
        not_or]
      tauto

theorem substituir_pistas (c : List HashEntry) (k v : CStr) (c1 : List HashEntry)
    (h : substituir c k v = some c1) : c1.map HashEntry.pista = c.map HashEntry.pista := by
  induction c generalizing c1 with
  | nil => simp [substituir] at h
  | cons e next ih =>
    by_cases h0 : strcmp e.pista k = 0
    · simp only [substituir, h0, if_true, Option.some.injEq] at h
      subst h
      simp
    · simp only [substituir, h0, if_false, Option.map_eq_some'] at h
      obtain ⟨n1, hn, rfl⟩ := h
      simp [ih n1 hn]

theorem procurar_substituir (c : List HashEntry) (k v : CStr) (c1 : List HashEntry)
    (h : substituir c k v = some c1) : procurar c1 k = some v := by
  induction c generalizing c1 with
  | nil => simp [substituir] at h
  | cons e next ih =>
    by_cases h0 : strcmp e.pista k = 0
    · simp only [substituir, h0, if_true, Option.some.injEq] at h
      subst h
      simp [procurar, h0]
    · simp only [substituir, h0, if_false, Option.map_eq_some'] at h
      obtain ⟨n1, hn, rfl⟩ := h
      simp [procurar, h0, ih n1 hn]

theorem procurar_eq_none_iff (c : List HashEntry) (k : CStr) :
    procurar c k = none ↔ k ∉ c.map HashEntry.pista := by
  induction c with
  | nil => simp [procurar]
  | cons e next ih =>
    by_cases h0 : strcmp e.pista k = 0
    · have := (strcmp_eq_zero_iff e.pista k).1 h0
      simp [procurar, h0, this, strcmp_self]
    · have hne : ¬ k = e.pista := fun h => h0 ((strcmp_eq_zero_iff e.pista k).2 h.symm)
      simp only [procurar, h0, if_false, ih, List.map_cons, List.mem_cons, not_or]
      tauto

/-! #### One `inserirNaHash` call -/

theorem gravar_buckets (ht : HashTable) (h i : Fin HASH_SIZE) (c : List HashEntry) :
    (ht.gravar h c).buckets i = if i = h then c else ht.buckets i := rfl

/-- The bucket of `k` after `inserirNaHash(ht, k, v)`: the old chain with the
value replaced, or a new head entry. -/
theorem inserirNaHash_bucket (ht : HashTable) (k v : CStr) :
    (∃ c1, substituir (ht.buckets (indice k)) k v = some c1 ∧
      inserirNaHash ht (some k) (some v) = ht.gravar (indice k) c1) ∨
    (substituir (ht.buckets (indice k)) k v = none ∧
      inserirNaHash ht (some k) (some v)
        = ht.gravar (indice k) (⟨k, v⟩ :: ht.buckets (indice k))) := by
  cases hs : substituir (ht.buckets (indice k)) k v with
  | none => exact Or.inr ⟨rfl, by simp [inserirNaHash, hs]⟩
  | some c1 => exact Or.inl ⟨c1, rfl, by simp [inserirNaHash, hs]⟩

theorem encontrarSuspeito_inserirNaHash (ht : HashTable) (k v : CStr) :
    encontrarSuspeito (inserirNaHash ht (some k) (some v)) (some k) = some v := by
  rcases inserirNaHash_bucket ht k v with ⟨c1, hs, he⟩ | ⟨_, he⟩
  · simp [encontrarSuspeito, he, gravar_buckets, procurar_substituir _ _ _ _ hs]
  · simp [encontrarSuspeito, he, gravar_buckets, procurar, strcmp_self]

theorem valida_inserirNaHash (ht : HashTable) (p s : Option CStr) (h : ht.Valida) :
    (inserirNaHash ht p s).Valida := by
  cases p with
  | none => simpa [inserirNaHash] using h
  | some k =>
    cases s with
    | none => simpa [inserirNaHash] using h
    | some v =>
      intro i
      rcases inserirNaHash_bucket ht k v with ⟨c1, hs, he⟩ | ⟨hs, he⟩
      · rw [he, gravar_buckets]
        by_cases hi : i = indice k
        · subst hi
          simp only [if_true]
          have hk := substituir_pistas _ _ _ _ hs
          refine ⟨?_, hk ▸ (h _).2⟩
          intro e hem
          have : e.pista ∈ (ht.buckets (indice k)).map HashEntry.pista :=
            hk ▸ List.mem_map_of_mem _ hem
          obtain ⟨e0, he0, hp⟩ := List.mem_map.1 this
          rw [← hp]
          exact (h _).1 e0 he0
        · simpa [hi] using h i
      · rw [he, gravar_buckets]
        by_cases hi : i = indice k
        · subst hi
          simp only [if_true]
          refine ⟨?_, ?_⟩
          · intro e hem
            rcases List.mem_cons.1 hem with rfl | hem
            · rfl
            · exact (h _).1 e hem
          · rw [List.map_cons, List.nodup_cons]
            exact ⟨(substituir_eq_none_iff _ _ _).1 hs, (h _).2⟩
        · simpa [hi] using h i

theorem valida_inicializarHash (ht0 : HashTable) : (inicializarHash ht0).Valida := by
  intro i
  simp [inicializarHash_buckets]

theorem valida_foldl (ops : List (Option CStr × Option CStr)) (ht : HashTable) (h : ht.Valida) :
    (ops.foldl (fun ht op => inserirNaHash ht op.1 op.2) ht).Valida := by
  induction ops generalizing ht with
  | nil => exact h
  | cons op ops ih => exact ih _ (valida_inserirNaHash ht op.1 op.2 h)

theorem valida_construirHash (ht0 : HashTable) (ops : List (Option CStr × Option CStr)) :
    (construirHash ht0 ops).Valida :=
  valida_foldl ops _ (valida_inicializarHash ht0)

/-! #### The whole table -/

theorem mem_entradas (ht : HashTable) (e : HashEntry) :
    e ∈ ht.entradas ↔ ∃ i, e ∈ ht.buckets i := by
  simp [HashTable.entradas, List.mem_flatten, List.mem_finRange]

theorem valida_nodup_entradas (ht : HashTable) (h : ht.Valida) :
    (ht.entradas.map HashEntry.pista).Nodup := by
  unfold HashTable.entradas
  rw [List.map_flatten, List.map_map, List.nodup_flatten]
  constructor
  · intro l hl
    obtain ⟨i, _, rfl⟩ := List.mem_map.1 hl
    exact (h i).2
  · rw [List.pairwise_map]
    refine (List.nodup_finRange HASH_SIZE).imp ?_
    intro i j hij k hki hkj
    simp only [Function.comp, List.mem_map] at hki hkj
    obtain ⟨e1, he1, rfl⟩ := hki
    obtain ⟨e2, he2, hp⟩ := hkj
    have h1 := (h i).1 e1 he1
    have h2 := (h j).1 e2 he2
    rw [hp] at h2
    exact hij (h1.symm.trans h2)

theorem procurar_of_mem (c : List HashEntry) (e : HashEntry)
    (hn : (c.map HashEntry.pista).Nodup) (he : e ∈ c) : procurar c e.pista = some e.suspeito := by
  induction c with
  | nil => simp at he
  | cons e0 next ih =>
    rw [List.map_cons, List.nodup_cons] at hn
    rcases List.mem_cons.1 he with rfl | he
    · simp [procurar, strcmp_self]
    · have hne : e0.pista ≠ e.pista := by
        intro hp
        exact hn.1 (hp ▸ List.mem_map_of_mem _ he)
      have h0 : ¬ strcmp e0.pista e.pista = 0 := fun h => hne ((strcmp_eq_zero_iff _ _).1 h)
      simp [procurar, h0, ih hn.2 he]

theorem sum_finRange_split (f : Fin HASH_SIZE → Nat) (h : Fin HASH_SIZE) :
    ((List.finRange HASH_SIZE).map f).sum
      = f h + (((List.finRange HASH_SIZE).erase h).map f).sum := by
  have hp := List.perm_cons_erase (List.mem_finRange h)
  rw [(hp.map f).sum_eq, List.map_cons, List.sum_cons]

theorem length_entradas_gravar (ht : HashTable) (h : Fin HASH_SIZE) (c : List HashEntry) :
    (ht.gravar h c).entradas.length + (ht.buckets h).length
      = ht.entradas.length + c.length := by
  unfold HashTable.entradas
  rw [List.length_flatten, List.length_flatten, List.map_map, List.map_map,
    sum_finRange_split _ h, sum_finRange_split (List.length ∘ ht.buckets) h]
  have hc : ((List.finRange HASH_SIZE).erase h).map (List.length ∘ (ht.gravar h c).buckets)
      = ((List.finRange HASH_SIZE).erase h).map (List.length ∘ ht.buckets) := by
    apply List.map_congr_left
    intro i hi
    have hne : i ≠ h := ((List.nodup_finRange HASH_SIZE).mem_erase_iff.1 hi).1
    simp [gravar_buckets, hne]
  rw [hc]
  simp only [Function.comp, gravar_buckets, if_true]
  omega

theorem length_entradas_inserirNaHash (ht : HashTable) (k v : CStr) :
    (inserirNaHash ht (some k) (some v)).entradas.length
      = ht.entradas.length
        + (if k ∈ (ht.buckets (indice k)).map HashEntry.pista then 0 else 1) := by
  rcases inserirNaHash_bucket ht k v with ⟨c1, hs, he⟩ | ⟨hs, he⟩
  · have hmem : k ∈ (ht.buckets (indice k)).map HashEntry.pista := by
      by_contra hk
      rw [(substituir_eq_none_iff _ _ _).2 hk] at hs
      exact absurd hs (by simp)
    have hl : c1.length = (ht.buckets (indice k)).length := by
      simpa using congrArg List.length (substituir_pistas _ _ _ _ hs)
    have := length_entradas_gravar ht (indice k) c1
    rw [he, if_pos hmem]
    omega
  · have hmem := (substituir_eq_none_iff _ _ _).1 hs
    have := length_entradas_gravar ht (indice k) (⟨k, v⟩ :: ht.buckets (indice k))
    rw [he, if_neg hmem]
    simp only [List.length_cons] at this
    omega

theorem mem_pistas_inserirNaHash (ht : HashTable) (k v : CStr) :
    k ∈ ((inserirNaHash ht (some k) (some v)).buckets (indice k)).map HashEntry.pista := by
  by_contra hk
  have := (procurar_eq_none_iff _ _).2 hk
  have h2 := encontrarSuspeito_inserirNaHash ht k v
  simp only [encontrarSuspeito] at h2
  rw [this] at h2
  exact absurd h2 (by simp)

/-- C6: for every index reachable from the initialised table, every key `k` and
values `a`, `b`: after `inserirNaHash(k, a)` then `inserirNaHash(k, b)`,
`encontrarSuspeito(k)` returns `b`, the entries of the table whose key is `k`
are exactly the one entry `(k, b)`, and the table has at most one entry more
than before the two calls. -/
theorem inserirNaHash_sobrescreve (ht0 : HashTable) (ops : List (Option CStr × Option CStr))
    (k a b : CStr) :
    encontrarSuspeito
      (inserirNaHash (inserirNaHash (construirHash ht0 ops) (some k) (some a)) (some k) (some b))
      (some k) = some b ∧
    (inserirNaHash (inserirNaHash (construirHash ht0 ops) (some k) (some a)) (some k)
      (some b)).entradas.filter (fun e => e.pista = k) = [⟨k, b⟩] ∧
    (inserirNaHash (inserirNaHash (construirHash ht0 ops) (some k) (some a)) (some k)
      (some b)).entradas.length ≤ (construirHash ht0 ops).entradas.length + 1 := by
  have hv0 := valida_construirHash ht0 ops
  generalize construirHash ht0 ops = ht at hv0 ⊢
  have hv1 := valida_inserirNaHash ht (some k) (some a) hv0
  generalize h1 : inserirNaHash ht (some k) (some a) = ht1 at hv1 ⊢
  have hv2 := valida_inserirNaHash ht1 (some k) (some b) hv1
  have hget := encontrarSuspeito_inserirNaHash ht1 k b
  have hlen1 := length_entradas_inserirNaHash ht k a
  have hlen2 := length_entradas_inserirNaHash ht1 k b
  have hk1 : k ∈ (ht1.buckets (indice k)).map HashEntry.pista := by
    rw [← h1]
    exact mem_pistas_inserirNaHash ht k a
  rw [h1] at hlen1
  rw [if_pos hk1] at hlen2
  have hk2 := mem_pistas_inserirNaHash ht1 k b
  generalize inserirNaHash ht1 (some k) (some b) = ht2 at hv2 hget hlen2 hk2 ⊢
  refine ⟨hget, ?_, ?_⟩
  · have hnd := valida_nodup_entradas ht2 hv2
    have hmem : k ∈ ht2.entradas.map HashEntry.pista := by
      obtain ⟨e, he, hp⟩ := List.mem_map.1 hk2
      exact List.mem_map.2 ⟨e, (mem_entradas ht2 e).2 ⟨_, he⟩, hp⟩
    have hcount : (ht2.entradas.filter (fun e => e.pista = k)).length = 1 := by
      have := List.count_eq_one_of_mem hnd hmem
      rw [List.count, List.countP_map, List.countP_eq_length_filter] at this
      rw [← this]
      congr 2
    obtain ⟨e, he⟩ := List.length_eq_one.1 hcount
    have hin : e ∈ ht2.entradas.filter (fun e => e.pista = k) := by simp [he]
    rw [List.mem_filter] at hin
    obtain ⟨hin, hp⟩ := hin
    have hp : e.pista = k := by simpa using hp
    obtain ⟨i, hi⟩ := (mem_entradas ht2 e).1 hin
    have hie : indice e.pista = i := (hv2 i).1 e hi
    have hs := procurar_of_mem _ e (hv2 i).2 hi
    rw [← hie, hp] at hs
    simp only [encontrarSuspeito] at hget
    rw [hget] at hs
    rw [he]
    cases e
    simp_all
  · split at hlen1 <;> omega

theorem pistas_inserirNaHash (ht : HashTable) (p s : Option CStr) (i : Fin HASH_SIZE) (x : CStr)
    (hx : x ∈ ((inserirNaHash ht p s).buckets i).map HashEntry.pista) :
    p = some x ∨ x ∈ (ht.buckets i).map HashEntry.pista := by
  cases p with
  | none => exact Or.inr (by simpa [inserirNaHash] using hx)
  | some k =>
    cases s with
    | none => exact Or.inr (by simpa [inserirNaHash] using hx)
    | some v =>
      rcases inserirNaHash_bucket ht k v with ⟨c1, hs, he⟩ | ⟨_, he⟩
      · rw [he, gravar_buckets] at hx
        by_cases hi : i = indice k
        · subst hi
          rw [if_pos rfl, substituir_pistas _ _ _ _ hs] at hx
          exact Or.inr hx
        · rw [if_neg hi] at hx
          exact Or.inr hx
      · rw [he, gravar_buckets] at hx
        by_cases hi : i = indice k
        · subst hi
          rw [if_pos rfl, List.map_cons, List.mem_cons] at hx
          rcases hx with rfl | hx
          · exact Or.inl rfl
          · exact Or.inr hx
        · rw [if_neg hi] at hx
          exact Or.inr hx

theorem pistas_foldl_inserirNaHash (ops : List (Option CStr × Option CStr)) (ht : HashTable)
    (i : Fin HASH_SIZE) (x : CStr)
    (hx : x ∈ ((ops.foldl (fun ht op => inserirNaHash ht op.1 op.2) ht).buckets i).map
      HashEntry.pista) :
    (∃ op ∈ ops, op.1 = some x) ∨ x ∈ (ht.buckets i).map HashEntry.pista := by
  induction ops generalizing ht with
  | nil => exact Or.inr hx
  | cons op ops ih =>
    rcases ih _ hx with ⟨op1, hop1, h1⟩ | h
    · exact Or.inl ⟨op1, List.mem_cons_of_mem _ hop1, h1⟩
    · rcases pistas_inserirNaHash ht op.1 op.2 i x h with h | h
      · exact Or.inl ⟨op, List.mem_cons_self _ _, h⟩
      · exact Or.inr h

/-- C7: in every index reachable from the initialised table by `inserirNaHash`
calls, `encontrarSuspeito` returns `NULL` for every key that was not the key of
one of those calls (whatever bucket it hashes to), and for the `NULL` key. -/
theorem encontrarSuspeito_nunca_inserida (ht0 : HashTable)
    (ops : List (Option CStr × Option CStr)) (k : CStr) (hk : ∀ op ∈ ops, op.1 ≠ some k) :
    encontrarSuspeito (construirHash ht0 ops) (some k) = none ∧
    encontrarSuspeito (construirHash ht0 ops) none = none := by
  refine ⟨?_, rfl⟩
  simp only [encontrarSuspeito]
  rw [procurar_eq_none_iff]
  intro hx
  rcases pistas_foldl_inserirNaHash ops _ _ k hx with ⟨op, hop, h⟩ | h
  · exact hk op hop h
  · simp [inicializarHash_buckets] at h

theorem encontrarSuspeito_nunca_inserida_witness :
    (∀ op ∈ [(some (ascii "aa"), some (ascii "Green"))], op.1 ≠ some (ascii "de")) ∧
    indice (ascii "aa") = indice (ascii "de") ∧
    (encontrarSuspeito (construirHash ⟨fun _ => []⟩ [(some (ascii "aa"), some (ascii "Green"))])
      (some (ascii "de")) = none ∧
    encontrarSuspeito (construirHash ⟨fun _ => []⟩ [(some (ascii "aa"), some (ascii "Green"))])
      none = none) :=
  ⟨by decide, by decide,
   encontrarSuspeito_nunca_inserida ⟨fun _ => []⟩ [(some (ascii "aa"), some (ascii "Green"))]
     (ascii "de") (by decide)⟩

/-! ### Absent and empty arguments -/

theorem suspeito_substituir (c : List HashEntry) (k v : CStr) (c1 : List HashEntry)
    (h : substituir c k v = some c1) (e : HashEntry) (he : e ∈ c1) :
    e.suspeito = v ∨ e ∈ c := by
  induction c generalizing c1 with
  | nil => simp [substituir] at h
  | cons e0 next ih =>
    by_cases h0 : strcmp e0.pista k = 0
    · simp only [substituir, h0, if_true, Option.some.injEq] at h
      subst h
      rcases List.mem_cons.1 he with rfl | he
      · exact Or.inl rfl
      · exact Or.inr (List.mem_cons_of_mem _ he)
    · simp only [substituir, h0, if_false, Option.map_eq_some'] at h
      obtain ⟨n1, hn, rfl⟩ := h
      rcases List.mem_cons.1 he with rfl | he
      · exact Or.inr (List.mem_cons_self _ _)
      · rcases ih n1 hn he with h | h
        · exact Or.inl h
        · exact Or.inr (List.mem_cons_of_mem _ h)

theorem suspeito_inserirNaHash (ht : HashTable) (p s : Option CStr) (i : Fin HASH_SIZE)
    (e : HashEntry) (he : e ∈ (inserirNaHash ht p s).buckets i) :
    s = some e.suspeito ∨ e ∈ ht.buckets i := by
  cases p with
  | none => exact Or.inr (by simpa [inserirNaHash] using he)
  | some k =>
    cases s with
    | none => exact Or.inr (by simpa [inserirNaHash] using he)
    | some v =>
      rcases inserirNaHash_bucket ht k v with ⟨c1, hs, hi⟩ | ⟨_, hi⟩
      · rw [hi, gravar_buckets] at he
        by_cases hik : i = indice k
        · subst hik
          rw [if_pos rfl] at he
          rcases suspeito_substituir _ _ _ _ hs e he with h | h
          · exact Or.inl (by rw [h])
          · exact Or.inr h
        · rw [if_neg hik] at he
          exact Or.inr he
      · rw [hi, gravar_buckets] at he
        by_cases hik : i = indice k
        · subst hik
          rw [if_pos rfl, List.mem_cons] at he
          rcases he with rfl | he
          · exact Or.inl rfl
          · exact Or.inr he
        · rw [if_neg hik] at he
          exact Or.inr he

theorem suspeito_foldl_inserirNaHash (ops : List (Option CStr × Option CStr)) (ht : HashTable)
    (i : Fin HASH_SIZE) (e : HashEntry)
    (he : e ∈ (ops.foldl (fun ht op => inserirNaHash ht op.1 op.2) ht).buckets i) :
    (∃ op ∈ ops, op.2 = some e.suspeito) ∨ e ∈ ht.buckets i := by
  induction ops generalizing ht with
  | nil => exact Or.inr he
  | cons op ops ih =>
    rcases ih _ he with ⟨op1, hop1, h1⟩ | h
    · exact Or.inl ⟨op1, List.mem_cons_of_mem _ hop1, h1⟩
    · rcases suspeito_inserirNaHash ht op.1 op.2 i e h with h | h
      · exact Or.inl ⟨op, List.mem_cons_self _ _, h⟩
      · exact Or.inr h

theorem procurar_eq_some (c : List HashEntry) (k s : CStr) (h : procurar c k = some s) :
    ∃ e ∈ c, e.suspeito = s := by
  induction c with
  | nil => simp [procurar] at h
  | cons e0 next ih =>
    by_cases h0 : strcmp e0.pista k = 0
    · simp only [procurar, h0, if_true, Option.some.injEq] at h
      exact ⟨e0, List.mem_cons_self _ _, h⟩
    · simp only [procurar, h0, if_false] at h
      obtain ⟨e, he, hs⟩ := ih h
      exact ⟨e, List.mem_cons_of_mem _ he, hs⟩

theorem encontrarSuspeito_construirHash (ht0 : HashTable)
    (ops : List (Option CStr × Option CStr)) (c : Option CStr) (s : CStr)
    (h : encontrarSuspeito (construirHash ht0 ops) c = some s) : ∃ op ∈ ops, op.2 = some s := by
  cases c with
  | none => simp [encontrarSuspeito] at h
  | some k =>
    obtain ⟨e, he, hs⟩ := procurar_eq_some _ _ _ h
    rcases suspeito_foldl_inserirNaHash ops _ _ e he with ⟨op, hop, h2⟩ | h2
    · exact ⟨op, hop, hs ▸ h2⟩
    · simp [inicializarHash_buckets] at h2

/-- C8 as stated fails: with the index holding hair -> "" (built by
`inserirNaHash`) and the ledger holding hair, the empty accusation scores 1. -/
theorem verificarSuspeitoFinal_acusado_vazio_conta :
    verificarSuspeitoFinal (inserirTodas .nil [some (ascii "hair")])
      (construirHash ⟨fun _ => []⟩ [(some (ascii "hair"), some CStr.vazia)])
      (some CStr.vazia) = 1 ∧
    verificarSuspeitoFinal (inserirTodas .nil [some (ascii "hair")])
      (construirHash ⟨fun _ => []⟩ [(some (ascii "hair"), some CStr.vazia)])
      (some CStr.vazia) ≠ 0 := by
  decide

/-- C8 (amended): for every ledger, `verificarSuspeitoFinal` returns 0 when the
accused is absent, whatever the index; and it returns 0 when the accused is the
empty string for every index built by `inserirNaHash` calls none of which
stores the empty string as suspect. -/
theorem verificarSuspeitoFinal_acusado_ausente_ou_vazio (raiz : NoPista) (ht : HashTable)
    (ht0 : HashTable) (ops : List (Option CStr × Option CStr))
    (hops : ∀ op ∈ ops, op.2 ≠ some CStr.vazia) :
    verificarSuspeitoFinal raiz ht none = 0 ∧
    verificarSuspeitoFinal raiz (construirHash ht0 ops) (some CStr.vazia) = 0 := by
  refine ⟨verificarSuspeitoFinal_none raiz ht, ?_⟩
  rw [verificarSuspeitoFinal_eq_countP]
  have : (listarPistas raiz).countP
      (fun c => encontrarSuspeito (construirHash ht0 ops) (some c) = some CStr.vazia) = 0 := by
    rw [List.countP_eq_zero]
    intro c _ hc
    have hc : encontrarSuspeito (construirHash ht0 ops) (some c) = some CStr.vazia := by
      simpa using hc
    obtain ⟨op, hop, h2⟩ := encontrarSuspeito_construirHash ht0 ops _ _ hc
    exact hops op hop h2
  rw [this]
  rfl

theorem verificarSuspeitoFinal_acusado_ausente_ou_vazio_witness :
    (∀ op ∈ [(some (ascii "hair"), some (ascii "Green"))], op.2 ≠ some CStr.vazia) ∧
    (verificarSuspeitoFinal (inserirTodas .nil [some (ascii "hair")])
      (construirHash ⟨fun _ => []⟩ [(some (ascii "hair"), some (ascii "Green"))]) none = 0 ∧
    verificarSuspeitoFinal (inserirTodas .nil [some (ascii "hair")])
      (construirHash ⟨fun _ => []⟩ [(some (ascii "hair"), some (ascii "Green"))])
      (some CStr.vazia) = 0) :=
  ⟨by decide,
   verificarSuspeitoFinal_acusado_ausente_ou_vazio (inserirTodas .nil [some (ascii "hair")])
     (construirHash ⟨fun _ => []⟩ [(some (ascii "hair"), some (ascii "Green"))])
     ⟨fun _ => []⟩ [(some (ascii "hair"), some (ascii "Green"))] (by decide)⟩

theorem tamanho_inserirPista_novo (raiz : NoPista) (c : CStr) (hc : c ∉ listarPistas raiz) :
    (inserirPista raiz (some c)).tamanho = raiz.tamanho + 1 := by
  induction raiz with
  | nil => simp [inserirPista, NoPista.tamanho]
  | node esq p dir ihe ihd =>
    simp only [listarPistas, List.mem_append, List.mem_cons, not_or] at hc
    obtain ⟨h1, h2, h3⟩ := hc
    have h0 : ¬ strcmp c p = 0 := fun h => h2 ((strcmp_eq_zero_iff c p).1 h)
    simp only [inserirPista, h0, if_false]
    by_cases hlt : strcmp c p < 0
    · simp only [hlt, if_true, NoPista.tamanho, ihe h1]
      omega
    · simp only [hlt, if_false, NoPista.tamanho, ihd h3]
      omega

/-- C9 as stated fails: `inserirPista` with the empty string on the empty
ledger creates a node. -/
theorem inserirPista_vazia_insere :
    inserirPista .nil (some CStr.vazia) = .node .nil CStr.vazia .nil ∧
    inserirPista .nil (some CStr.vazia) ≠ .nil ∧
    (inserirPista .nil (some CStr.vazia)).tamanho = 1 := by
  decide

/-- C9 (amended): for every ledger `L`, `inserirPista(L, NULL)` returns `L`
unchanged (same nodes, same in-order sequence, same size).  The empty string
is inserted like any other clue: a ledger that does not hold it grows by one
node, and an ordered ledger that already holds it is returned unchanged. -/
theorem inserirPista_ausente (L : NoPista) :
    inserirPista L none = L ∧
    listarPistas (inserirPista L none) = listarPistas L ∧
    (inserirPista L none).tamanho = L.tamanho ∧
    (CStr.vazia ∉ listarPistas L → (inserirPista L (some CStr.vazia)).tamanho = L.tamanho + 1) ∧
    (Ordenada L → CStr.vazia ∈ listarPistas L → inserirPista L (some CStr.vazia) = L) := by
  rw [inserirPista_none]
  exact ⟨rfl, rfl, rfl, tamanho_inserirPista_novo L CStr.vazia,
    fun h hc => inserirPista_of_mem L CStr.vazia h hc⟩

/-! ### Exploration -/

theorem turno_sem_efeito (nome : CStr) (pista : Option CStr) (esq dir : Sala)
    (colecao : NoPista) (linha : List Nat)
    (hord : Ordenada colecao)
    (hp : ∀ p, pista = some p → p ∈ listarPistas colecao)
    (hc : (primeiroNaoBranco linha = 101 ∧ esq = .nil) ∨
          (primeiroNaoBranco linha = 100 ∧ dir = .nil) ∨
          (primeiroNaoBranco linha ≠ 101 ∧ primeiroNaoBranco linha ≠ 100 ∧
            primeiroNaoBranco linha ≠ 115)) :
    (turno (.node nome pista esq dir) colecao (some linha)).atual = .node nome pista esq dir ∧
    (turno (.node nome pista esq dir) colecao (some linha)).colecao = colecao ∧
    (turno (.node nome pista esq dir) colecao (some linha)).sair = false := by
  have hcol : (entrar nome pista colecao).1 = colecao := by
    cases pista with
    | none => rfl
    | some p => exact inserirPista_of_mem colecao p hord (hp p rfl)
  simp only [turno, Option.getD_some, despachar]
  rcases hc with ⟨h1, h2⟩ | ⟨h1, h2⟩ | ⟨h1, h2, h3⟩
  · simp [h1, h2, hcol]
  · simp [h1, h2, hcol]
  · simp [h1, h2, h3, hcol]

/-- C10: in `explorarSalas`, for every room `R` and every ordered ledger that
already holds the clue of `R` (or `R` has none), a loop iteration whose decoded
command is go-left (`e`) with no left child, go-right (`d`) with no right
child, or an invalid command, does not leave the loop, keeps the current room
equal to `R` (name, clue and both subtrees unchanged) and keeps the ledger
unchanged; the loop then goes on exactly as from room `R` with that ledger on
the rest of the input. -/
theorem turno_permanece (nome : CStr) (pista : Option CStr) (esq dir : Sala)
    (colecao : NoPista) (linha : List Nat) (resto : List (List Nat))
    (hord : Ordenada colecao)
    (hp : ∀ p, pista = some p → p ∈ listarPistas colecao)
    (hc : (primeiroNaoBranco linha = 101 ∧ esq = .nil) ∨
          (primeiroNaoBranco linha = 100 ∧ dir = .nil) ∨
          (primeiroNaoBranco linha ≠ 101 ∧ primeiroNaoBranco linha ≠ 100 ∧
            primeiroNaoBranco linha ≠ 115)) :
    (turno (.node nome pista esq dir) colecao (some linha)).atual = .node nome pista esq dir ∧
    (turno (.node nome pista esq dir) colecao (some linha)).colecao = colecao ∧
    (turno (.node nome pista esq dir) colecao (some linha)).sair = false ∧
    (explorarLaco (linha :: resto) (.node nome pista esq dir) colecao).atual
      = (explorarLaco resto (.node nome pista esq dir) colecao).atual ∧
    (explorarLaco (linha :: resto) (.node nome pista esq dir) colecao).colecao
      = (explorarLaco resto (.node nome pista esq dir) colecao).colecao := by
  obtain ⟨h1, h2, h3⟩ := turno_sem_efeito nome pista esq dir colecao linha hord hp hc
  refine ⟨h1, h2, h3, ?_, ?_⟩
  · rw [explorarLaco]
    simp only [h3, h1, h2]
    rfl
  · rw [explorarLaco]
    simp only [h3, h1, h2]
    rfl

theorem turno_permanece_witness :
    Ordenada (inserirTodas .nil [some (ascii "Pegadas no carpete")]) ∧
    (∀ p, some (ascii "Pegadas no carpete") = some p →
      p ∈ listarPistas (inserirTodas .nil [some (ascii "Pegadas no carpete")])) ∧
    ((primeiroNaoBranco [32, 69, 10] = 101 ∧ Sala.nil = .nil) ∨
      (primeiroNaoBranco [32, 69, 10] = 100 ∧ Sala.nil = .nil) ∨
      (primeiroNaoBranco [32, 69, 10] ≠ 101 ∧ primeiroNaoBranco [32, 69, 10] ≠ 100 ∧
        primeiroNaoBranco [32, 69, 10] ≠ 115)) ∧
    ((turno (.node (ascii "Hall") (some (ascii "Pegadas no carpete")) .nil .nil)
        (inserirTodas .nil [some (ascii "Pegadas no carpete")]) (some [32, 69, 10])).atual
      = .node (ascii "Hall") (some (ascii "Pegadas no carpete")) .nil .nil ∧
    (turno (.node (ascii "Hall") (some (ascii "Pegadas no carpete")) .nil .nil)
        (inserirTodas .nil [some (ascii "Pegadas no carpete")]) (some [32, 69, 10])).colecao
      = inserirTodas .nil [some (ascii "Pegadas no carpete")] ∧
    (turno (.node (ascii "Hall") (some (ascii "Pegadas no carpete")) .nil .nil)
        (inserirTodas .nil [some (ascii "Pegadas no carpete")]) (some [32, 69, 10])).sair
      = false ∧
    (explorarLaco ([32, 69, 10] :: [[115, 10]])
        (.node (ascii "Hall") (some (ascii "Pegadas no carpete")) .nil .nil)
        (inserirTodas .nil [some (ascii "Pegadas no carpete")])).atual
      = (explorarLaco [[115, 10]]
        (.node (ascii "Hall") (some (ascii "Pegadas no carpete")) .nil .nil)
        (inserirTodas .nil [some (ascii "Pegadas no carpete")])).atual ∧
    (explorarLaco ([32, 69, 10] :: [[115, 10]])
        (.node (ascii "Hall") (some (ascii "Pegadas no carpete")) .nil .nil)
        (inserirTodas .nil [some (ascii "Pegadas no carpete")])).colecao
      = (explorarLaco [[115, 10]]
        (.node (ascii "Hall") (some (ascii "Pegadas no carpete")) .nil .nil)
        (inserirTodas .nil [some (ascii "Pegadas no carpete")])).colecao) :=
  ⟨ordenada_inserirTodas _ _ ordenada_nil,
   fun p hp => by
     have : ascii "Pegadas no carpete" = p := by simpa using hp
     subst this
     decide,
   Or.inl ⟨by decide, rfl⟩,
   turno_permanece (ascii "Hall") (some (ascii "Pegadas no carpete")) .nil .nil
     (inserirTodas .nil [some (ascii "Pegadas no carpete")]) [32, 69, 10] [[115, 10]]
     (ordenada_inserirTodas _ _ ordenada_nil)
     (fun p hp => by
       have : ascii "Pegadas no carpete" = p := by simpa using hp
       subst this
       decide)
     (Or.inl ⟨by decide, rfl⟩)⟩

theorem despachar_colecao (atual : Sala) (colecao : NoPista) (saida : List Msg) (c : Nat) :
    (despachar atual colecao saida c).colecao = colecao := by
  cases atual with
  | nil => rfl
  | node nome pista esq dir =>
    simp only [despachar]
    split_ifs <;> rfl

theorem despachar_saida (atual : Sala) (colecao : NoPista) (saida : List Msg) (c : Nat) :
    ∃ t, (despachar atual colecao saida c).saida = saida ++ t := by
  cases atual with
  | nil => exact ⟨[], by simp [despachar]⟩
  | node nome pista esq dir =>
    simp only [despachar]
    split_ifs
    · exact ⟨[], by simp⟩
    · exact ⟨_, rfl⟩
    · exact ⟨[], by simp⟩
    · exact ⟨_, rfl⟩
    · exact ⟨_, rfl⟩
    · exact ⟨_, rfl⟩

theorem turno_colecao (nome : CStr) (pista : Option CStr) (esq dir : Sala) (colecao : NoPista)
    (linha : Option (List Nat)) :
    (turno (.node nome pista esq dir) colecao linha).colecao = (entrar nome pista colecao).1 := by
  simp only [turno, despachar_colecao]

theorem turno_saida (nome : CStr) (pista : Option CStr) (esq dir : Sala) (colecao : NoPista)
    (linha : Option (List Nat)) (m : Msg) (hm : m ∈ (entrar nome pista colecao).2) :
    m ∈ (turno (.node nome pista esq dir) colecao linha).saida := by
  simp only [turno]
  obtain ⟨t, ht⟩ := despachar_saida (.node nome pista esq dir) (entrar nome pista colecao).1
    ((entrar nome pista colecao).2 ++ [.menu]) (primeiroNaoBranco (linha.getD [115, 10]))
  rw [ht]
  simp [hm]

/-- C11: for every ledger `L` built by `inserirPista` calls from the empty
ledger and every clue `c` that `L` holds, entering a room whose clue is `c`
(lines 174-177, and so the whole loop iteration) leaves the ledger identical:
same tree, same node count, same in-order sequence, in which `c` occurs once;
and the message reporting the clue is still printed. -/
theorem entrar_pista_ja_coletada (ps : List (Option CStr)) (c nome : CStr) (esq dir : Sala)
    (linha : Option (List Nat)) (hc : c ∈ listarPistas (inserirTodas .nil ps)) :
    (entrar nome (some c) (inserirTodas .nil ps)).1 = inserirTodas .nil ps ∧
    (entrar nome (some c) (inserirTodas .nil ps)).1.tamanho = (inserirTodas .nil ps).tamanho ∧
    listarPistas (entrar nome (some c) (inserirTodas .nil ps)).1
      = listarPistas (inserirTodas .nil ps) ∧
    (listarPistas (entrar nome (some c) (inserirTodas .nil ps)).1).count c = 1 ∧
    Msg.pista c ∈ (entrar nome (some c) (inserirTodas .nil ps)).2 ∧
    (turno (.node nome (some c) esq dir) (inserirTodas .nil ps) linha).colecao
      = inserirTodas .nil ps ∧
    Msg.pista c ∈ (turno (.node nome (some c) esq dir) (inserirTodas .nil ps) linha).saida := by
  have hord := ordenada_inserirTodas ps .nil ordenada_nil
  have h1 : (entrar nome (some c) (inserirTodas .nil ps)).1 = inserirTodas .nil ps :=
    inserirPista_of_mem _ c hord hc
  have hm : Msg.pista c ∈ (entrar nome (some c) (inserirTodas .nil ps)).2 := by
    simp [entrar]
  refine ⟨h1, by rw [h1], by rw [h1], ?_, hm, ?_, turno_saida _ _ _ _ _ _ _ hm⟩
  · rw [h1]
    exact List.count_eq_one_of_mem (nodup_listarPistas hord) hc
  · rw [turno_colecao, h1]

theorem entrar_pista_ja_coletada_witness :
    ascii "hair" ∈ listarPistas
      (inserirTodas .nil [some (ascii "mu"), some (ascii "hair"), some (ascii "zeta")]) ∧
    ((entrar (ascii "Hall") (some (ascii "hair"))
        (inserirTodas .nil [some (ascii "mu"), some (ascii "hair"), some (ascii "zeta")])).1
      = inserirTodas .nil [some (ascii "mu"), some (ascii "hair"), some (ascii "zeta")] ∧
    (entrar (ascii "Hall") (some (ascii "hair"))
        (inserirTodas .nil [some (ascii "mu"), some (ascii "hair"), some (ascii "zeta")])).1.tamanho
      = (inserirTodas .nil [some (ascii "mu"), some (ascii "hair"), some (ascii "zeta")]).tamanho ∧
    listarPistas (entrar (ascii "Hall") (some (ascii "hair"))
        (inserirTodas .nil [some (ascii "mu"), some (ascii "hair"), some (ascii "zeta")])).1
      = listarPistas
        (inserirTodas .nil [some (ascii "mu"), some (ascii "hair"), some (ascii "zeta")]) ∧
    (listarPistas (entrar (ascii "Hall") (some (ascii "hair"))
        (inserirTodas .nil [some (ascii "mu"), some (ascii "hair"), some (ascii "zeta")])).1).count
      (ascii "hair") = 1 ∧
    Msg.pista (ascii "hair") ∈ (entrar (ascii "Hall") (some (ascii "hair"))
        (inserirTodas .nil [some (ascii "mu"), some (ascii "hair"), some (ascii "zeta")])).2 ∧
    (turno (.node (ascii "Hall") (some (ascii "hair")) .nil .nil)
        (inserirTodas .nil [some (ascii "mu"), some (ascii "hair"), some (ascii "zeta")])
        (some [100, 10])).colecao
      = inserirTodas .nil [some (ascii "mu"), some (ascii "hair"), some (ascii "zeta")] ∧
    Msg.pista (ascii "hair") ∈ (turno (.node (ascii "Hall") (some (ascii "hair")) .nil .nil)
        (inserirTodas .nil [some (ascii "mu"), some (ascii "hair"), some (ascii "zeta")])
        (some [100, 10])).saida) :=
  ⟨by decide,
   entrar_pista_ja_coletada [some (ascii "mu"), some (ascii "hair"), some (ascii "zeta")]
     (ascii "hair") (ascii "Hall") .nil .nil (some [100, 10]) (by decide)⟩

/-! #### Decoding a command -/

theorem isspace_ne_zero {b : Nat} (h : isspace b = true) : b ≠ 0 := by
  rintro rfl
  simp [isspace] at h

theorem primeiroNaoBranco_brancos_append (ws l : List Nat) (h : ∀ b ∈ ws, isspace b = true) :
    primeiroNaoBranco (ws ++ l) = primeiroNaoBranco l := by
  induction ws with
  | nil => rfl
  | cons b ws ih =>
    have hb := h b (by simp)
    simp only [List.cons_append, primeiroNaoBranco, isspace_ne_zero hb, hb, if_true, if_false]
    exact ih (fun x hx => h x (by simp [hx]))

theorem primeiroNaoBranco_so_brancos (ws : List Nat) (h : ∀ b ∈ ws, isspace b = true) :
    primeiroNaoBranco ws = 0 := by
  have := primeiroNaoBranco_brancos_append ws [] h
  simpa [primeiroNaoBranco] using this

theorem primeiroNaoBranco_append_brancos (l ws : List Nat) (h : ∀ b ∈ ws, isspace b = true) :
    primeiroNaoBranco (l ++ ws) = primeiroNaoBranco l := by
  induction l with
  | nil => simpa [primeiroNaoBranco] using primeiroNaoBranco_so_brancos ws h
  | cons b l ih =>
    simp only [List.cons_append, primeiroNaoBranco]
    rw [show l.append ws = l ++ ws from rfl, ih]

theorem tolower_eq_iff (ch lo : Nat) (hlo : 97 ≤ lo ∧ lo ≤ 122) :
    tolower ch = lo ↔ ch = lo ∨ ch + 32 = lo := by
  unfold tolower
  split_ifs with h <;> omega

/-- C12: for every buffer read in a turn, made of blanks `ws1`, a first
non-blank character `ch` and anything after it, the decoded command is
`tolower ch` whatever follows and whatever blanks precede; it is go-left
exactly for `e`/`E`, go-right for `d`/`D`, leave for `s`/`S`, and any other
non-blank character is an invalid command that keeps the room and stays in the
loop; blanks added before and after any buffer do not change its decoding; and
a failed read (end of input) is handled exactly as a leave command. -/
theorem comando_decodificado (nome : CStr) (pista : Option CStr) (esq dir : Sala)
    (colecao : NoPista) (ws1 ws2 resto linha : List Nat) (ch : Nat)
    (hws1 : ∀ b ∈ ws1, isspace b = true) (hws2 : ∀ b ∈ ws2, isspace b = true)
    (hch0 : ch ≠ 0) (hch : isspace ch = false) :
    primeiroNaoBranco (ws1 ++ ch :: resto) = tolower ch ∧
    (tolower ch = 101 ↔ ch = 101 ∨ ch = 69) ∧
    (tolower ch = 100 ↔ ch = 100 ∨ ch = 68) ∧
    (tolower ch = 115 ↔ ch = 115 ∨ ch = 83) ∧
    primeiroNaoBranco (ws1 ++ linha ++ ws2) = primeiroNaoBranco linha ∧
    (tolower ch = 101 →
      (turno (.node nome pista esq dir) colecao (some (ws1 ++ ch :: resto))).atual
        = (if esq = .nil then .node nome pista esq dir else esq) ∧
      (turno (.node nome pista esq dir) colecao (some (ws1 ++ ch :: resto))).sair = false) ∧
    (tolower ch = 100 →
      (turno (.node nome pista esq dir) colecao (some (ws1 ++ ch :: resto))).atual
        = (if dir = .nil then .node nome pista esq dir else dir) ∧
      (turno (.node nome pista esq dir) colecao (some (ws1 ++ ch :: resto))).sair = false) ∧
    (tolower ch = 115 →
      (turno (.node nome pista esq dir) colecao (some (ws1 ++ ch :: resto))).atual
        = .node nome pista esq dir ∧
      (turno (.node nome pista esq dir) colecao (some (ws1 ++ ch :: resto))).sair = true ∧
      turno (.node nome pista esq dir) colecao none
        = turno (.node nome pista esq dir) colecao (some (ws1 ++ ch :: resto))) ∧
    (tolower ch ≠ 101 → tolower ch ≠ 100 → tolower ch ≠ 115 →
      (turno (.node nome pista esq dir) colecao (some (ws1 ++ ch :: resto))).atual
        = .node nome pista esq dir ∧
      (turno (.node nome pista esq dir) colecao (some (ws1 ++ ch :: resto))).sair = false ∧
      Msg.invalida ∈
        (turno (.node nome pista esq dir) colecao (some (ws1 ++ ch :: resto))).saida) ∧
    (turno (.node nome pista esq dir) colecao none).sair = true ∧
    (turno (.node nome pista esq dir) colecao none).atual = .node nome pista esq dir := by
  have hdec : primeiroNaoBranco (ws1 ++ ch :: resto) = tolower ch := by
    rw [primeiroNaoBranco_brancos_append _ _ hws1]
    simp [primeiroNaoBranco, hch0, hch]
  have hfim : primeiroNaoBranco [115, 10] = 115 := by decide
  refine ⟨hdec, ?_, ?_, ?_, ?_, ?_, ?_, ?_, ?_, ?_, ?_⟩
  · rw [tolower_eq_iff ch 101 (by omega)]; omega
  · rw [tolower_eq_iff ch 100 (by omega)]; omega
  · rw [tolower_eq_iff ch 115 (by omega)]; omega
  · rw [primeiroNaoBranco_append_brancos _ _ hws2, primeiroNaoBranco_brancos_append _ _ hws1]
  · intro h
    simp only [turno, Option.getD_some, hdec, h, despachar]
    by_cases he : esq = .nil <;> simp [he]
  · intro h
    simp only [turno, Option.getD_some, hdec, h, despachar]
    by_cases hd : dir = .nil <;> simp [hd]
  · intro h
    simp only [turno, Option.getD_some, Option.getD_none, hdec, hfim, h, despachar]
    simp
  · intro h1 h2 h3
    simp only [turno, Option.getD_some, hdec, despachar]
    simp [h1, h2, h3]
  · simp only [turno, Option.getD_none, hfim, despachar]
    simp
  · simp only [turno, Option.getD_none, hfim, despachar]
    simp

theorem comando_decodificado_witness :
    (∀ b ∈ [32, 9], isspace b = true) ∧ (∀ b ∈ [13, 10], isspace b = true) ∧
    69 ≠ 0 ∧ isspace 69 = false ∧
    (turno (.node (ascii "Hall") none (.node (ascii "Cozinha") none .nil .nil) .nil) .nil
      (some ([32, 9] ++ 69 :: [120, 10]))).atual = .node (ascii "Cozinha") none .nil .nil ∧
    primeiroNaoBranco ([32, 9] ++ 69 :: [120, 10]) = tolower 69 :=
  ⟨by decide, by decide, by decide, by decide, by decide,
   (comando_decodificado (ascii "Hall") none (.node (ascii "Cozinha") none .nil .nil) .nil .nil
     [32, 9] [13, 10] [120, 10] [100] 69 (by decide) (by decide) (by decide) (by decide)).1⟩

/-! #### The loop of `explorarSalas` -/

theorem mem_listarPistas_turno (atual : Sala) (colecao : NoPista) (linha : Option (List Nat))
    (c : CStr) :
    c ∈ listarPistas (turno atual colecao linha).colecao
      ↔ atual.pista = some c ∨ c ∈ listarPistas colecao := by
  cases atual with
  | nil => simp [turno, Sala.pista]
  | node nome pista esq dir =>
    rw [turno_colecao]
    cases pista with
    | none => simp [entrar, Sala.pista]
    | some p =>
      simp only [entrar, Sala.pista, mem_listarPistas_inserirPista, Option.some.injEq]
      constructor
      · rintro (h | h)
        · exact Or.inl h.symm
        · exact Or.inr h
      · rintro (h | h)
        · exact Or.inl h.symm
        · exact Or.inr h

theorem ordenada_turno (atual : Sala) (colecao : NoPista) (linha : Option (List Nat))
    (h : Ordenada colecao) : Ordenada (turno atual colecao linha).colecao := by
  cases atual with
  | nil => simpa [turno] using h
  | node nome pista esq dir =>
    rw [turno_colecao]
    cases pista with
    | none => simpa [entrar] using h
    | some p => exact ordenada_inserirPista colecao p h

theorem turno_atual (atual : Sala) (colecao : NoPista) (linha : Option (List Nat)) :
    Desce atual (turno atual colecao linha).atual := by
  cases atual with
  | nil => exact Or.inl rfl
  | node nome pista esq dir =>
    simp only [turno, despachar]
    split_ifs with h1 h2 h3 h4 h5
    · exact Or.inr ⟨h2, Or.inl rfl⟩
    · exact Or.inl rfl
    · exact Or.inr ⟨h4, Or.inr rfl⟩
    · exact Or.inl rfl
    · exact Or.inl rfl
    · exact Or.inl rfl

theorem turno_sair_atual (atual : Sala) (colecao : NoPista) (linha : Option (List Nat))
    (h : (turno atual colecao linha).sair = true) :
    (turno atual colecao linha).atual = atual := by
  cases atual with
  | nil => rfl
  | node nome pista esq dir =>
    simp only [turno, despachar] at h ⊢
    split_ifs at h ⊢
    rfl

theorem turno_none_sair (atual : Sala) (colecao : NoPista) :
    (turno atual colecao none).sair = true := by
  cases atual with
  | nil => rfl
  | node nome pista esq dir =>
    have hfim : primeiroNaoBranco [115, 10] = 115 := by decide
    simp [turno, hfim, despachar]

theorem explorarLaco_cons (linha : List Nat) (resto : List (List Nat)) (atual : Sala)
    (colecao : NoPista) :
    explorarLaco (linha :: resto) atual colecao
      = if (turno atual colecao (some linha)).sair then turno atual colecao (some linha)
        else { explorarLaco resto (turno atual colecao (some linha)).atual
                 (turno atual colecao (some linha)).colecao with
               saida := (turno atual colecao (some linha)).saida
                 ++ (explorarLaco resto (turno atual colecao (some linha)).atual
                      (turno atual colecao (some linha)).colecao).saida } := by
  rw [explorarLaco]

theorem salasDoLaco_cons (linha : List Nat) (resto : List (List Nat)) (atual : Sala)
    (colecao : NoPista) :
    salasDoLaco (linha :: resto) atual colecao
      = if (turno atual colecao (some linha)).sair then [atual]
        else atual :: salasDoLaco resto (turno atual colecao (some linha)).atual
          (turno atual colecao (some linha)).colecao := by
  rw [salasDoLaco]

theorem mem_listarPistas_explorarLaco (stdin : List (List Nat)) (atual : Sala)
    (colecao : NoPista) (c : CStr) :
    c ∈ listarPistas (explorarLaco stdin atual colecao).colecao
      ↔ c ∈ listarPistas colecao ∨ ∃ R ∈ salasDoLaco stdin atual colecao, R.pista = some c := by
  induction stdin generalizing atual colecao with
  | nil =>
    simp only [explorarLaco, salasDoLaco, mem_listarPistas_turno, List.mem_singleton,
      exists_eq_left]
    tauto
  | cons linha resto ih =>
    rw [explorarLaco_cons, salasDoLaco_cons]
    by_cases hs : (turno atual colecao (some linha)).sair = true
    · simp only [hs, if_true, mem_listarPistas_turno, List.mem_singleton, exists_eq_left]
      tauto
    · simp only [hs, if_false, Bool.false_eq_true, ih, mem_listarPistas_turno, List.mem_cons,
        exists_eq_or_imp]
      tauto

theorem ordenada_explorarLaco (stdin : List (List Nat)) (atual : Sala) (colecao : NoPista)
    (h : Ordenada colecao) : Ordenada (explorarLaco stdin atual colecao).colecao := by
  induction stdin generalizing atual colecao with
  | nil => exact ordenada_turno _ _ _ h
  | cons linha resto ih =>
    rw [explorarLaco_cons]
    by_cases hs : (turno atual colecao (some linha)).sair = true
    · simpa [hs] using ordenada_turno atual colecao (some linha) h
    · simpa [hs] using ih _ _ (ordenada_turno atual colecao (some linha) h)

theorem explorarLaco_sair (stdin : List (List Nat)) (atual : Sala) (colecao : NoPista) :
    (explorarLaco stdin atual colecao).sair = true := by
  induction stdin generalizing atual colecao with
  | nil => exact turno_none_sair atual colecao
  | cons linha resto ih =>
    rw [explorarLaco_cons]
    by_cases hs : (turno atual colecao (some linha)).sair = true
    · simp [hs]
    · simpa [hs] using ih _ _

theorem salasDoLaco_getLast (stdin : List (List Nat)) (atual : Sala) (colecao : NoPista) :
    (salasDoLaco stdin atual colecao).getLast? = some (explorarLaco stdin atual colecao).atual := by
  induction stdin generalizing atual colecao with
  | nil =>
    simp only [salasDoLaco, explorarLaco, List.getLast?_singleton]
    rw [turno_sair_atual _ _ _ (turno_none_sair atual colecao)]
  | cons linha resto ih =>
    rw [explorarLaco_cons, salasDoLaco_cons]
    by_cases hs : (turno atual colecao (some linha)).sair = true
    · simp only [hs, if_true, List.getLast?_singleton]
      rw [turno_sair_atual _ _ _ hs]
    · simp only [hs, if_false, Bool.false_eq_true]
      have := ih (turno atual colecao (some linha)).atual (turno atual colecao (some linha)).colecao
      cases hl : salasDoLaco resto (turno atual colecao (some linha)).atual
          (turno atual colecao (some linha)).colecao with
      | nil => rw [hl] at this; simp at this
      | cons x xs =>
        rw [hl] at this
        rw [List.getLast?_cons_cons, this]

/-- C13: for every room tree, every initial ledger `L0` and every input
(`explorarSalas` always ends, by a leave command or at end of input), the
clues of the ledger after `explorarSalas` are exactly the clues of `L0`
together with the clues of the rooms that were the current room at some turn;
the last of these rooms is the room where the loop ended; rooms never entered
and rooms without clue add nothing; and when `L0` is ordered the resulting
ledger is ordered, so it holds each clue once. -/
theorem explorarSalas_pistas (raiz : Sala) (L0 : NoPista) (ht : HashTable)
    (stdin : List (List Nat)) :
    (∀ c, c ∈ listarPistas (explorarSalas raiz L0 ht stdin).colecao
      ↔ c ∈ listarPistas L0 ∨ ∃ R ∈ salasVisitadas raiz L0 stdin, R.pista = some c) ∧
    (explorarSalas raiz L0 ht stdin).sair = true ∧
    (raiz ≠ .nil →
      (salasVisitadas raiz L0 stdin).head? = some raiz ∧
      (salasVisitadas raiz L0 stdin).getLast? = some (explorarSalas raiz L0 ht stdin).atual) ∧
    (Ordenada L0 → Ordenada (explorarSalas raiz L0 ht stdin).colecao ∧
      (listarPistas (explorarSalas raiz L0 ht stdin).colecao).Nodup) := by
  cases raiz with
  | nil =>
    refine ⟨fun c => by simp [explorarSalas, salasVisitadas], rfl, fun h => absurd rfl h, ?_⟩
    intro h
    exact ⟨h, nodup_listarPistas h⟩
  | node nome pista esq dir =>
    refine ⟨fun c => mem_listarPistas_explorarLaco stdin _ L0 c, explorarLaco_sair stdin _ L0,
      fun _ => ⟨?_, salasDoLaco_getLast stdin _ L0⟩, ?_⟩
    · simp only [salasVisitadas]
      cases stdin with
      | nil => rfl
      | cons linha resto =>
        rw [salasDoLaco_cons]
        split_ifs <;> rfl
    · intro h
      have := ordenada_explorarLaco stdin (.node nome pista esq dir) L0 h
      exact ⟨this, nodup_listarPistas this⟩

theorem descer_append (s : Sala) (ds : List Direcao) (d : Direcao) :
    s.descer (ds ++ [d]) = (s.descer ds).filho d := by
  induction ds generalizing s with
  | nil => rfl
  | cons x xs ih =>
    simp only [List.cons_append, Sala.descer]
    exact ih _

theorem turno_ne_nil (atual : Sala) (colecao : NoPista) (linha : Option (List Nat))
    (h : atual ≠ .nil) : (turno atual colecao linha).atual ≠ .nil := by
  rcases turno_atual atual colecao linha with h1 | ⟨h1, _⟩
  · rw [h1]; exact h
  · exact h1

theorem salasDoLaco_chain (stdin : List (List Nat)) (atual : Sala) (colecao : NoPista) :
    (salasDoLaco stdin atual colecao).Chain' Desce ∧
    (salasDoLaco stdin atual colecao).head? = some atual := by
  induction stdin generalizing atual colecao with
  | nil => simp [salasDoLaco]
  | cons linha resto ih =>
    rw [salasDoLaco_cons]
    by_cases hs : (turno atual colecao (some linha)).sair = true
    · simp [hs]
    · simp only [hs, if_false, Bool.false_eq_true, List.head?_cons, and_true]
      obtain ⟨h1, h2⟩ := ih (turno atual colecao (some linha)).atual
        (turno atual colecao (some linha)).colecao
      rw [List.chain'_cons']
      refine ⟨?_, h1⟩
      intro y hy
      rw [h2] at hy
      have : (turno atual colecao (some linha)).atual = y := by simpa using hy
      rw [← this]
      exact turno_atual atual colecao (some linha)

theorem salasDoLaco_ne_nil (stdin : List (List Nat)) (atual : Sala) (colecao : NoPista)
    (h : atual ≠ .nil) : ∀ R ∈ salasDoLaco stdin atual colecao, R ≠ .nil := by
  induction stdin generalizing atual colecao with
  | nil => simpa [salasDoLaco] using h
  | cons linha resto ih =>
    rw [salasDoLaco_cons]
    by_cases hs : (turno atual colecao (some linha)).sair = true
    · simpa [hs] using h
    · simp only [hs, if_false, Bool.false_eq_true, List.mem_cons]
      rintro R (rfl | hR)
      · exact h
      · exact ih _ _ (turno_ne_nil atual colecao (some linha) h) R hR

theorem salasDoLaco_caminhos (raiz : Sala) (stdin : List (List Nat)) (atual : Sala)
    (colecao : NoPista) (pre : List Direcao) (h : atual = raiz.descer pre) :
    ∃ cs : List (List Direcao),
      List.Forall₂ (fun c R => R = raiz.descer c) (pre :: cs) (salasDoLaco stdin atual colecao) ∧
      List.Chain (fun p q => (q = p ∨ ∃ d, q = p ++ [d]) ∧ p.length ≤ q.length) pre cs := by
  induction stdin generalizing atual colecao pre with
  | nil => exact ⟨[], by simp [salasDoLaco, h], List.Chain.nil⟩
  | cons linha resto ih =>
    rw [salasDoLaco_cons]
    by_cases hs : (turno atual colecao (some linha)).sair = true
    · rw [if_pos hs]
      exact ⟨[], by simp [h], List.Chain.nil⟩
    · simp only [hs, if_false, Bool.false_eq_true]
      have hstep : ∃ pre2 : List Direcao,
          (turno atual colecao (some linha)).atual = raiz.descer pre2 ∧
          ((pre2 = pre ∨ ∃ d, pre2 = pre ++ [d]) ∧ pre.length ≤ pre2.length) := by
        rcases turno_atual atual colecao (some linha) with h1 | ⟨_, h1 | h1⟩
        · exact ⟨pre, by rw [h1, h], Or.inl rfl, le_refl _⟩
        · exact ⟨pre ++ [.esquerda], by rw [h1, descer_append, h]; rfl,
            Or.inr ⟨_, rfl⟩, by simp⟩
        · exact ⟨pre ++ [.direita], by rw [h1, descer_append, h]; rfl,
            Or.inr ⟨_, rfl⟩, by simp⟩
      obtain ⟨pre2, hp2, hrel⟩ := hstep
      obtain ⟨cs, hf, hc⟩ := ih _ (turno atual colecao (some linha)).colecao pre2 hp2
      exact ⟨pre2 :: cs, List.Forall₂.cons h hf, List.Chain.cons hrel hc⟩

/-- C14: for every room tree with a root and every input, the sequence of
current rooms of `explorarSalas` starts at the root, holds only rooms (never
`NULL`), and each next current room is the same room or its left or right
child.  Hence the rooms are the nodes at paths `[] = c0, c1, ...` from the root
where each path is the previous one or the previous one extended by one link:
the depth never decreases and all visited rooms lie on one path from the root. -/
theorem explorarSalas_so_desce (nome : CStr) (pista : Option CStr) (esq dir : Sala)
    (L0 : NoPista) (stdin : List (List Nat)) :
    (salasVisitadas (.node nome pista esq dir) L0 stdin).head?
      = some (.node nome pista esq dir) ∧
    (salasVisitadas (.node nome pista esq dir) L0 stdin).Chain' Desce ∧
    (∀ R ∈ salasVisitadas (.node nome pista esq dir) L0 stdin, R ≠ .nil) ∧
    (∃ cs : List (List Direcao),
      List.Forall₂ (fun c R => R = (Sala.node nome pista esq dir).descer c) ([] :: cs)
        (salasVisitadas (.node nome pista esq dir) L0 stdin) ∧
      List.Chain' (fun p q => (q = p ∨ ∃ d, q = p ++ [d]) ∧ p.length ≤ q.length) ([] :: cs)) := by
  obtain ⟨h1, h2⟩ := salasDoLaco_chain stdin (.node nome pista esq dir) L0
  refine ⟨h2, h1, salasDoLaco_ne_nil stdin _ L0 (by simp), ?_⟩
  obtain ⟨cs, hf, hc⟩ := salasDoLaco_caminhos (.node nome pista esq dir) stdin
    (.node nome pista esq dir) L0 [] rfl
  exact ⟨cs, hf, hc⟩

/-! ### More on the index -/

theorem procurar_substituir_outra (c : List HashEntry) (k v k2 : CStr) (c1 : List HashEntry)
    (hne : k ≠ k2) (h : substituir c k v = some c1) : procurar c1 k2 = procurar c k2 := by
  induction c generalizing c1 with
  | nil => simp [substituir] at h
  | cons e next ih =>
    by_cases h0 : strcmp e.pista k = 0
    · have hek : e.pista = k := (strcmp_eq_zero_iff _ _).1 h0
      simp only [substituir, h0, if_true, Option.some.injEq] at h
      subst h
      have h2 : ¬ strcmp e.pista k2 = 0 := by
        rw [strcmp_eq_zero_iff, hek]
        exact hne
      simp [procurar, h2]
    · simp only [substituir, h0, if_false, Option.map_eq_some'] at h
      obtain ⟨n1, hn, rfl⟩ := h
      simp only [procurar, ih n1 hn]

/-- C15: for every index state, distinct keys `k` and `k2` and every value `v`,
`encontrarSuspeito(k2)` returns after `inserirNaHash(k, v)` what it returned
before (whether or not `k` and `k2` share a bucket); and `inserirNaHash` with a
`NULL` key or a `NULL` value returns the table unchanged. -/
theorem inserirNaHash_preserva_outras (ht : HashTable) (k k2 v : CStr) (p s : Option CStr)
    (hne : k ≠ k2) :
    encontrarSuspeito (inserirNaHash ht (some k) (some v)) (some k2)
      = encontrarSuspeito ht (some k2) ∧
    inserirNaHash ht none s = ht ∧
    inserirNaHash ht p none = ht := by
  refine ⟨?_, rfl, by cases p <;> rfl⟩
  simp only [encontrarSuspeito]
  rcases inserirNaHash_bucket ht k v with ⟨c1, hs, he⟩ | ⟨_, he⟩
  · rw [he, gravar_buckets]
    by_cases hi : indice k2 = indice k
    · rw [if_pos hi, hi, procurar_substituir_outra _ _ _ _ _ hne hs]
    · rw [if_neg hi]
  · rw [he, gravar_buckets]
    by_cases hi : indice k2 = indice k
    · have h2 : ¬ strcmp k k2 = 0 := by
        rw [strcmp_eq_zero_iff]
        exact hne
      rw [if_pos hi, hi]
      simp [procurar, h2]
    · rw [if_neg hi]

theorem inserirNaHash_preserva_outras_witness :
    ascii "aa" ≠ ascii "de" ∧ indice (ascii "aa") = indice (ascii "de") ∧
    (encontrarSuspeito
        (inserirNaHash (construirHash ⟨fun _ => []⟩ [(some (ascii "de"), some (ascii "Green"))])
          (some (ascii "aa")) (some (ascii "Black"))) (some (ascii "de"))
      = encontrarSuspeito
        (construirHash ⟨fun _ => []⟩ [(some (ascii "de"), some (ascii "Green"))])
        (some (ascii "de")) ∧
    inserirNaHash (construirHash ⟨fun _ => []⟩ [(some (ascii "de"), some (ascii "Green"))])
        none (some (ascii "Black"))
      = construirHash ⟨fun _ => []⟩ [(some (ascii "de"), some (ascii "Green"))] ∧
    inserirNaHash (construirHash ⟨fun _ => []⟩ [(some (ascii "de"), some (ascii "Green"))])
        (some (ascii "aa")) none
      = construirHash ⟨fun _ => []⟩ [(some (ascii "de"), some (ascii "Green"))]) :=
  ⟨by decide, by decide,
   inserirNaHash_preserva_outras
     (construirHash ⟨fun _ => []⟩ [(some (ascii "de"), some (ascii "Green"))])
     (ascii "aa") (ascii "de") (ascii "Black") (some (ascii "aa")) (some (ascii "Black"))
     (by decide)⟩

/-- C16: every index reachable from the initialised table by `inserirNaHash`
calls keeps each entry in the bucket numbered `hash_str(key) % HASH_SIZE`, and
no key occurs in more than one entry of the whole table. -/
theorem construirHash_invariante (ht0 : HashTable) (ops : List (Option CStr × Option CStr)) :
    (∀ (i : Fin HASH_SIZE) (e : HashEntry), e ∈ (construirHash ht0 ops).buckets i →
      i.val = hash_str e.pista % HASH_SIZE) ∧
    ((construirHash ht0 ops).entradas.map HashEntry.pista).Nodup ∧
    (∀ e1 ∈ (construirHash ht0 ops).entradas, ∀ e2 ∈ (construirHash ht0 ops).entradas,
      e1.pista = e2.pista → e1 = e2) := by
  have hv := valida_construirHash ht0 ops
  have hn := valida_nodup_entradas _ hv
  refine ⟨?_, hn, ?_⟩
  · intro i e he
    have := (hv i).1 e he
    rw [← this]
    rfl
  · intro e1 h1 e2 h2 hp
    exact List.inj_on_of_nodup_map hn h1 h2 hp

/-! ### Growing the ledger -/

theorem listarPistas_inserirPista_perm (raiz : NoPista) (c : CStr)
    (h : c ∉ listarPistas raiz) :
    (listarPistas (inserirPista raiz (some c))).Perm (c :: listarPistas raiz) := by
  induction raiz with
  | nil => simp [inserirPista, listarPistas]
  | node esq p dir ihe ihd =>
    simp only [listarPistas, List.mem_append, List.mem_cons, not_or] at h
    obtain ⟨h1, h2, h3⟩ := h
    have h0 : ¬ strcmp c p = 0 := fun h => h2 ((strcmp_eq_zero_iff c p).1 h)
    simp only [inserirPista, h0, if_false]
    by_cases hlt : strcmp c p < 0
    · simp only [hlt, if_true, listarPistas]
      exact (ihe h1).append_right _
    · simp only [hlt, if_false, listarPistas]
      refine List.Perm.trans ?_ List.perm_middle
      exact List.Perm.append_left _ ((List.Perm.cons p (ihd h3)).trans (List.Perm.swap _ _ _))

/-- C17: for every ledger `L` built by `inserirPista` calls from the empty
ledger, every index, accused and clue `c`, the score of `inserirPista(L, c)` is
the score of `L` plus 1 when `c` is not in `L` and `encontrarSuspeito(c)` is the
accused, and the score of `L` otherwise; so it is never lower. -/
theorem verificarSuspeitoFinal_inserirPista (ps : List (Option CStr)) (ht : HashTable)
    (acusado c : CStr) :
    verificarSuspeitoFinal (inserirPista (inserirTodas .nil ps) (some c)) ht (some acusado)
      = verificarSuspeitoFinal (inserirTodas .nil ps) ht (some acusado)
        + (if c ∉ listarPistas (inserirTodas .nil ps) ∧
              encontrarSuspeito ht (some c) = some acusado then 1 else 0) ∧
    verificarSuspeitoFinal (inserirTodas .nil ps) ht (some acusado)
      ≤ verificarSuspeitoFinal (inserirPista (inserirTodas .nil ps) (some c)) ht
          (some acusado) := by
  have hord := ordenada_inserirTodas ps .nil ordenada_nil
  have key : verificarSuspeitoFinal (inserirPista (inserirTodas .nil ps) (some c)) ht
      (some acusado)
      = verificarSuspeitoFinal (inserirTodas .nil ps) ht (some acusado)
        + (if c ∉ listarPistas (inserirTodas .nil ps) ∧
              encontrarSuspeito ht (some c) = some acusado then 1 else 0) := by
    by_cases hc : c ∈ listarPistas (inserirTodas .nil ps)
    · rw [inserirPista_of_mem _ c hord hc]
      simp [hc]
    · rw [verificarSuspeitoFinal_eq_countP, verificarSuspeitoFinal_eq_countP,
        (listarPistas_inserirPista_perm _ c hc).countP_eq, List.countP_cons]
      by_cases he : encontrarSuspeito ht (some c) = some acusado
      · simp [hc, he]
      · simp [hc, he]
  refine ⟨key, ?_⟩
  rw [key]
  split_ifs <;> omega

/-! ### The hash function -/

theorem hash_passo (h c : Nat) :
    (((h <<< 5) % 2 ^ 64 + h) % 2 ^ 64 + c) % 2 ^ 64 = (h * 33 + c) % 2 ^ 64 := by
  rw [Nat.shiftLeft_eq]
  omega

/-- C19: for every byte string `s`, `hash_str(s)` is the left fold
`h := (h * 33 + byte) mod 2^64` over the bytes of `s` from `h = 5381` (the
shift-add form `((h << 5) + h) + c` is multiplication by 33 under 64-bit
wrap-around), it is below `2^64`, and the bucket number
`hash_str(s) % HASH_SIZE` used by `inserirNaHash` and `encontrarSuspeito` lies
in `0..102`. -/
theorem hash_str_djb2 (s : CStr) :
    hash_str s = s.bytes.foldl (fun h c => (h * 33 + c) % 2 ^ 64) 5381 ∧
    (∀ h c : Nat, (((h <<< 5) % 2 ^ 64 + h) % 2 ^ 64 + c) % 2 ^ 64 = (h * 33 + c) % 2 ^ 64) ∧
    hash_str s < 2 ^ 64 ∧
    hash_str s % HASH_SIZE ≤ 102 ∧
    (indice s).val = hash_str s % 103 := by
  have h1 : hash_str s = s.bytes.foldl (fun h c => (h * 33 + c) % 2 ^ 64) 5381 := by
    unfold hash_str
    congr 1
    funext h c
    exact hash_passo h c
  refine ⟨h1, hash_passo, ?_, ?_, rfl⟩
  · rw [h1]
    generalize s.bytes = l
    have : ∀ (l : List Nat) (a : Nat), a < 2 ^ 64 →
        l.foldl (fun h c => (h * 33 + c) % 2 ^ 64) a < 2 ^ 64 := by
      intro l
      induction l with
      | nil => intro a ha; exact ha
      | cons x xs ih =>
        intro a _
        exact ih _ (Nat.mod_lt _ (by norm_num))
    exact this l 5381 (by norm_num)
  · have : hash_str s % HASH_SIZE < HASH_SIZE := Nat.mod_lt _ (by decide)
    have h103 : HASH_SIZE = 103 := rfl
    omega

/-! ### The game of `main` -/

theorem utf8_estudio : (utf8 "Estúdio").bytes = [69, 115, 116, 195, 186, 100, 105, 111] := by
  decide

theorem indiceMain_eq (ht0 : HashTable) : indiceMain ht0 = indiceMain ⟨fun _ => []⟩ := by
  simp only [indiceMain, construirHash, inicializarHash_eq]

theorem turno_colecao_aoEntrar (atual : Sala) (colecao : NoPista) (linha : Option (List Nat)) :
    (turno atual colecao linha).colecao = aoEntrar atual colecao := by
  cases atual with
  | nil => simp [turno, aoEntrar, Sala.pista, inserirPista_none]
  | node nome pista esq dir =>
    rw [turno_colecao]
    cases pista with
    | none => simp [entrar, aoEntrar, Sala.pista, inserirPista_none]
    | some p => rfl

theorem turno_em_sucessores (atual : Sala) (colecao : NoPista) (linha : Option (List Nat)) :
    ((turno atual colecao linha).atual, (turno atual colecao linha).colecao)
      ∈ sucessores (atual, colecao) := by
  rw [turno_colecao_aoEntrar]
  simp only [sucessores, List.mem_append, List.mem_singleton]
  rcases turno_atual atual colecao linha with h | ⟨hn, h | h⟩
  · exact Or.inl (Or.inl (by rw [h]))
  · rw [h] at hn ⊢
    exact Or.inl (Or.inr (by simp [hn]))
  · rw [h] at hn ⊢
    exact Or.inr (by simp [hn])

theorem explorarLaco_em (S : List (Sala × NoPista))
    (hS : ∀ σ ∈ S, ∀ τ ∈ sucessores σ, τ ∈ S) (stdin : List (List Nat)) (σ : Sala × NoPista)
    (hσ : σ ∈ S) :
    ∃ τ ∈ S, (explorarLaco stdin σ.1 σ.2).atual = τ.1 ∧
      (explorarLaco stdin σ.1 σ.2).colecao = aoEntrar τ.1 τ.2 := by
  induction stdin generalizing σ with
  | nil =>
    refine ⟨σ, hσ, ?_, ?_⟩
    · exact turno_sair_atual _ _ _ (turno_none_sair σ.1 σ.2)
    · exact turno_colecao_aoEntrar _ _ _
  | cons linha resto ih =>
    rw [explorarLaco_cons]
    by_cases hs : (turno σ.1 σ.2 (some linha)).sair = true
    · simp only [hs, if_true]
      exact ⟨σ, hσ, turno_sair_atual _ _ _ hs, turno_colecao_aoEntrar _ _ _⟩
    · simp only [hs, if_false, Bool.false_eq_true]
      exact ih ((turno σ.1 σ.2 (some linha)).atual, (turno σ.1 σ.2 (some linha)).colecao)
        (hS σ hσ _ (turno_em_sucessores σ.1 σ.2 (some linha)))

theorem countP_eq_count_filterMap (f : CStr → Option CStr) (a : CStr) (l : List CStr) :
    l.countP (fun c => f c = some a) = (l.filterMap f).count a := by
  induction l with
  | nil => rfl
  | cons x xs ih =>
    rw [List.countP_cons, List.filterMap_cons, ih]
    cases hx : f x with
    | none => simp
    | some y =>
      by_cases hya : y = a
      · simp [hya]
      · simp [hya, List.count_cons]

theorem verificarSuspeitoFinal_eq_count (colecao : NoPista) (ht : HashTable) (acusado : CStr) :
    verificarSuspeitoFinal colecao ht (some acusado)
      = ((suspeitosDe ht colecao).count acusado : Nat) := by
  rw [verificarSuspeitoFinal_eq_countP, suspeitosDe, ← countP_eq_count_filterMap]

theorem estadosMain_fechado : ∀ σ ∈ estadosMain, ∀ τ ∈ sucessores σ, τ ∈ estadosMain := by
  decide

set_option maxRecDepth 100000 in
theorem estadosMain_suspeitos : ∀ τ ∈ estadosMain,
    (2 ≤ (suspeitosDe (indiceMain ⟨fun _ => []⟩) (aoEntrar τ.1 τ.2)).count (utf8 "Sra. Green")
      ↔ τ.1.nome = some (utf8 "Estúdio")) ∧
    (2 ≤ (suspeitosDe (indiceMain ⟨fun _ => []⟩) (aoEntrar τ.1 τ.2)).count (utf8 "Sr. Black")
      ↔ τ.1.nome = some (utf8 "Jardim")) ∧
    (∀ x ∈ suspeitosDe (indiceMain ⟨fun _ => []⟩) (aoEntrar τ.1 τ.2),
      x ≠ utf8 "Sra. Green" → x ≠ utf8 "Sr. Black" →
        (suspeitosDe (indiceMain ⟨fun _ => []⟩) (aoEntrar τ.1 τ.2)).count x < 2) ∧
    (∀ x ∈ suspeitosDe (indiceMain ⟨fun _ => []⟩) (aoEntrar τ.1 τ.2),
      (suspeitosDe (indiceMain ⟨fun _ => []⟩) (aoEntrar τ.1 τ.2)).count x ≤ 2) := by
  decide

theorem sustentada_iff (n : Nat) : sustentada (n : Int) = true ↔ 2 ≤ n := by
  simp [sustentada]

/-- Verdict of the game of `main` for one accusation. -/
theorem veredicto_de (ht0 : HashTable) (stdin : List (List Nat)) (acusado : CStr) :
    (sustentada (correspondenciasMain ht0 stdin acusado) = true ↔
      (acusado = utf8 "Sra. Green" ∧
        (exploracaoMain ht0 stdin).atual.nome = some (utf8 "Estúdio")) ∨
      (acusado = utf8 "Sr. Black" ∧
        (exploracaoMain ht0 stdin).atual.nome = some (utf8 "Jardim"))) ∧
    correspondenciasMain ht0 stdin acusado ≤ 2 := by
  obtain ⟨τ, hτ, h1, h2⟩ := explorarLaco_em estadosMain estadosMain_fechado stdin (hall, .nil)
    (by decide)
  have hat : (exploracaoMain ht0 stdin).atual = τ.1 := h1
  have hcol : (exploracaoMain ht0 stdin).colecao = aoEntrar τ.1 τ.2 := h2
  obtain ⟨dG, dB, dO, dM⟩ := estadosMain_suspeitos τ hτ
  have hGB : utf8 "Sra. Green" ≠ utf8 "Sr. Black" := by decide
  simp only [correspondenciasMain]
  rw [hcol, hat, indiceMain_eq ht0, verificarSuspeitoFinal_eq_count, sustentada_iff]
  by_cases hin : acusado ∈ suspeitosDe (indiceMain ⟨fun _ => []⟩) (aoEntrar τ.1 τ.2)
  · refine ⟨?_, Int.ofNat_le.2 (dM acusado hin)⟩
    by_cases hG : acusado = utf8 "Sra. Green"
    · subst hG
      rw [dG]
      simp [hGB]
    · by_cases hB : acusado = utf8 "Sr. Black"
      · subst hB
        rw [dB]
        simp [hGB.symm]
      · have := dO acusado hin hG hB
        simp only [hG, hB, false_and, or_false, iff_false]
        omega
  · rw [List.count_eq_zero_of_not_mem hin]
    refine ⟨?_, by simp⟩
    simp only [show ¬ (2 ≤ 0) by omega, false_iff, not_or, not_and]
    constructor
    · rintro rfl hn
      have := dG.2 hn
      exact hin (List.count_pos_iff.1 (by omega))
    · rintro rfl hn
      have := dB.2 hn
      exact hin (List.count_pos_iff.1 (by omega))

set_option maxRecDepth 100000 in
theorem veredicto_exemplos (ht0 : HashTable) :
    sustentada (correspondenciasMain ht0 [[101, 10], [100, 10], [115, 10]]
      (utf8 "Sra. Green")) = true ∧
    sustentada (correspondenciasMain ht0 [[100, 10], [101, 10]] (utf8 "Sr. Black")) = true := by
  simp only [correspondenciasMain, exploracaoMain]
  rw [indiceMain_eq ht0]
  decide

/-- C18: for the mansion and the index built in `main`, for every input of the
exploration and every accusation, the verdict is sustained (`correspondencias
>= 2`) exactly when the accusation is "Sra. Green" and the exploration ended
in the room "Estúdio", or the accusation is "Sr. Black" and it ended in the
room "Jardim"; the score never exceeds 2, and accusing "Cozinheiro" or
"Baronesa" is never sustained.  Both sustained verdicts occur: Green after the
commands e, d, s and Black after d, e and end of input. -/
theorem veredicto_main (ht0 : HashTable) (stdin : List (List Nat)) (acusado : CStr) :
    (sustentada (correspondenciasMain ht0 stdin acusado) = true ↔
      (acusado = utf8 "Sra. Green" ∧
        (exploracaoMain ht0 stdin).atual.nome = some (utf8 "Estúdio")) ∨
      (acusado = utf8 "Sr. Black" ∧
        (exploracaoMain ht0 stdin).atual.nome = some (utf8 "Jardim"))) ∧
    correspondenciasMain ht0 stdin acusado ≤ 2 ∧
    sustentada (correspondenciasMain ht0 stdin (utf8 "Cozinheiro")) = false ∧
    sustentada (correspondenciasMain ht0 stdin (utf8 "Baronesa")) = false ∧
    sustentada (correspondenciasMain ht0 [[101, 10], [100, 10], [115, 10]]
      (utf8 "Sra. Green")) = true ∧
    sustentada (correspondenciasMain ht0 [[100, 10], [101, 10]] (utf8 "Sr. Black")) = true := by
  refine ⟨(veredicto_de ht0 stdin acusado).1, (veredicto_de ht0 stdin acusado).2, ?_, ?_,
    veredicto_exemplos ht0⟩
  · have h := (veredicto_de ht0 stdin (utf8 "Cozinheiro")).1
    have n1 : utf8 "Cozinheiro" ≠ utf8 "Sra. Green" := by decide
    have n2 : utf8 "Cozinheiro" ≠ utf8 "Sr. Black" := by decide
    simp only [n1, n2, false_and, or_false, iff_false] at h
    simpa using h
  · have h := (veredicto_de ht0 stdin (utf8 "Baronesa")).1
    have n1 : utf8 "Baronesa" ≠ utf8 "Sra. Green" := by decide
    have n2 : utf8 "Baronesa" ≠ utf8 "Sr. Black" := by decide
    simp only [n1, n2, false_and, or_false, iff_false] at h
    simpa using h

end DetectiveQuest
